import Mathlib

/-!
# Leaf-chain iterator of the B+ tree (`iterator.go`)

A shallow embedding of `BPTree.Iterator`, `Iterator.HasNext` and `Iterator.Next`.

* Go pointers `*node` are nullable addresses (`Option Addr`) into a heap that
  holds a node at every address: a non-nil Go pointer is never dangling.
* Go `int` is a 64-bit two's complement integer: `GoInt`, with wrapping
  arithmetic.
* A Go panic is an `Except.error` carrying the kind of panic.
* `Put`, `Get` and `New` live outside `iterator.go`; they are modelled from the
  specification as a functional B+ tree whose leaves, laid out as a chain in
  the heap, are what the iterator walks.
-/

set_option linter.dupNamespace false

namespace Bptree

/-! ## Machine integers -/

/-- Two's complement reduction of a mathematical integer to 64 bits. -/
def wrapInt (x : Int) : Int :=
  (x + 9223372036854775808) % 18446744073709551616 - 9223372036854775808

/-- Go `int` on a 64-bit platform. -/
structure GoInt where
  val : Int
  lo : -9223372036854775808 ≤ val
  hi : val ≤ 9223372036854775807
deriving DecidableEq

namespace GoInt

/-- The Go `int` obtained from a mathematical integer by wrap-around. -/
def wrap (x : Int) : GoInt :=
  ⟨wrapInt x, by unfold wrapInt; omega, by unfold wrapInt; omega⟩

instance (n : Nat) : OfNat GoInt n := ⟨wrap n⟩

/-- Go `a + b` on `int`. -/
def add (a b : GoInt) : GoInt := wrap (a.val + b.val)

/-- Go `a - b` on `int`. -/
def sub (a b : GoInt) : GoInt := wrap (a.val - b.val)

/-- Go `-a` on `int`. -/
def neg (a : GoInt) : GoInt := wrap (-a.val)

instance : Add GoInt := ⟨add⟩
instance : Sub GoInt := ⟨sub⟩
instance : Neg GoInt := ⟨neg⟩
instance : LT GoInt := ⟨fun a b => a.val < b.val⟩
instance : LE GoInt := ⟨fun a b => a.val ≤ b.val⟩
instance (a b : GoInt) : Decidable (a < b) := inferInstanceAs (Decidable (a.val < b.val))
instance (a b : GoInt) : Decidable (a ≤ b) := inferInstanceAs (Decidable (a.val ≤ b.val))

end GoInt

/-! ## Data model -/

/-- Go `[]byte`. -/
abbrev Bytes := List UInt8

/-- Address of a heap-allocated node. -/
abbrev Addr := Nat

/-- The ways the modelled code can panic. -/
inductive Panic where
  /-- The explicit `panic("there is no next node")` of `Next`. -/
  | noNextNode
  /-- A slice index outside `0 ≤ i < len`. -/
  | indexOutOfRange
  /-- A pointer accessor called on the other variant. -/
  | wrongPointerKind
  /-- A field read through a nil pointer. -/
  | nilDereference
deriving DecidableEq

/-- Modelled from the spec: the `pointer` type, declared outside `iterator.go`.
A tagged union that is either a stored leaf value or a reference to a node. -/
inductive Pointer where
  | value (v : Bytes)
  | child (a : Addr)
deriving DecidableEq

/-- Modelled from the spec: `pointer.asValue`, declared outside `iterator.go`.
Calling the value accessor on a child pointer fails. -/
def Pointer.asValue : Pointer → Except Panic Bytes
  | .value v => .ok v
  | .child _ => .error .wrongPointerKind

/-- Modelled from the spec: `pointer.asNode`, declared outside `iterator.go`.
Calling the node accessor on a value pointer fails. -/
def Pointer.asNode : Pointer → Except Panic Addr
  | .child a => .ok a
  | .value _ => .error .wrongPointerKind

/-- Modelled from the spec: the `node` type, declared outside `iterator.go`.
`keys` and `pointers` are the slot slices, `keyNum` the number of slots in
use, `nextLeaf` and `prevLeaf` the sibling links of a leaf (nil at the chain
ends). -/
structure Node where
  keys : List Bytes
  pointers : List Pointer
  keyNum : GoInt
  nextLeaf : Option Addr
  prevLeaf : Option Addr
deriving DecidableEq

/-- Modelled from the spec: `node.next(reverse)`, declared outside
`iterator.go`. Returns the adjacent leaf's pointer-wrapped reference in the
requested direction, or nil at a chain boundary. -/
def Node.next (n : Node) (reverse : Bool) : Option Pointer :=
  (if reverse then n.prevLeaf else n.nextLeaf).map Pointer.child

/-- The heap: the node stored at each address. -/
abbrev Heap := Addr → Node

/-- Modelled from the spec: the fields of `BPTree` that `iterator.go` reads,
the cached references to the first and the last leaf. -/
structure BPTree where
  leftmost : Option Addr
  rightmost : Option Addr
deriving DecidableEq

/-- `type IteratorOptions struct { reverse bool }`. -/
structure IteratorOptions where
  reverse : Bool
deriving DecidableEq

/-- `type Iterator struct { next *node; i int; options *IteratorOptions }`.
The options pointer of an iterator is never nil: the only constructor,
`BPTree.Iterator`, dereferences it before building the iterator. -/
structure Iterator where
  next : Option Addr
  i : GoInt
  options : IteratorOptions
deriving DecidableEq

/-- Go slice indexing `s[i]`: panics unless `0 ≤ i < len(s)`. -/
def index {α : Type} (s : List α) (i : GoInt) : Except Panic α :=
  if 0 ≤ i.val then
    match s[i.val.toNat]? with
    | some x => .ok x
    | none => .error .indexOutOfRange
  else .error .indexOutOfRange

/-! ## The iterator -/

/-- `func (t *BPTree) Iterator(options *IteratorOptions) *Iterator`. -/
def BPTree.Iterator (h : Heap) (t : BPTree) (options : Option IteratorOptions) :
    Except Panic Iterator :=
  match options with
  | none => .error .nilDereference
  | some o =>
    if o.reverse then
      match t.rightmost with
      | none => .error .nilDereference
      | some r => .ok ⟨some r, (h r).keyNum - 1, o⟩
    else
      .ok ⟨t.leftmost, 0, o⟩

/-- `func (it *Iterator) HasNext() bool`. -/
def Iterator.HasNext (h : Heap) (it : Iterator) : Bool :=
  if it.options.reverse then
    match it.next with
    | none => false
    | some _ => decide (0 ≤ it.i.val)
  else
    match it.next with
    | none => false
    | some a => decide (it.i.val < (h a).keyNum.val)

/-- `func (it *Iterator) Next() ([]byte, []byte)`: the returned key and value
together with the iterator after the call, or the panic. -/
def Iterator.Next (h : Heap) (it : Iterator) : Except Panic (Bytes × Bytes × Iterator) :=
  if !it.HasNext h then
    .error .noNextNode
  else
    match it.next with
    | none => .error .nilDereference
    | some a =>
      if !it.options.reverse then do
        let key ← index (h a).keys it.i
        let p ← index (h a).pointers it.i
        let value ← p.asValue
        let i := it.i + 1
        if i = (h a).keyNum then
          match (h a).next false with
          | some nextPointer => do
            let b ← nextPointer.asNode
            pure (key, value, ⟨some b, 0, it.options⟩)
          | none => pure (key, value, ⟨none, 0, it.options⟩)
        else
          pure (key, value, ⟨some a, i, it.options⟩)
      else do
        let key ← index (h a).keys it.i
        let p ← index (h a).pointers it.i
        let value ← p.asValue
        let i := it.i - 1
        if i = -1 then
          match (h a).next true with
          | some nextPointer => do
            let b ← nextPointer.asNode
            let b2 ← nextPointer.asNode
            pure (key, value, ⟨some b, (h b2).keyNum - 1, it.options⟩)
          | none => pure (key, value, ⟨none, 0, it.options⟩)
        else
          pure (key, value, ⟨some a, i, it.options⟩)

/-! ## Callers: the loops of `iterator_test.go` -/

/-- The loop `for it.HasNext() { key, value := it.Next(); ... }`: the pairs
collected and the iterator left behind. `none` when a call panics or the fuel
runs out before `HasNext` turns false. -/
def drain (h : Heap) : Nat → Iterator → Option (List (Bytes × Bytes) × Iterator)
  | 0, it => if it.HasNext h then none else some ([], it)
  | fuel + 1, it =>
    if it.HasNext h then
      match it.Next h with
      | .error _ => none
      | .ok (key, value, it') =>
        (drain h fuel it').map fun r => ((key, value) :: r.1, r.2)
    else some ([], it)

/-- The call sequence `it.Next(); it.Next(); ...` made `n` times without a
`HasNext` test: the iterator after the last call, or the first panic. -/
def callNext (h : Heap) : Nat → Iterator → Except Panic Iterator
  | 0, it => .ok it
  | n + 1, it =>
    match it.Next h with
    | .error p => .error p
    | .ok (_, _, it') => callNext h n it'

/-! ## Well-formed leaf chains -/

/-- Following `link` from the pointer `p` visits exactly the addresses `ls`,
in that order, and then reaches nil. -/
def Linked (h : Heap) (link : Node → Option Addr) : Option Addr → List Addr → Prop
  | p, [] => p = none
  | p, a :: rest => p = some a ∧ Linked h link (link (h a)) rest

/-- The pointer holds a leaf value. -/
def Pointer.isValue : Pointer → Bool
  | .value _ => true
  | .child _ => false

/-- A non-empty leaf whose slots in use exist and hold values:
`1 ≤ keyNum ≤ len(keys)`, `keyNum ≤ len(pointers)`, and each of the first
`keyNum` pointers is a value. -/
def LeafOk (n : Node) : Prop :=
  1 ≤ n.keyNum.val ∧ n.keyNum.val ≤ n.keys.length ∧ n.keyNum.val ≤ n.pointers.length ∧
    ∀ p ∈ n.pointers.take n.keyNum.val.toNat, p.isValue = true

instance (n : Node) : Decidable (LeafOk n) := by unfold LeafOk; infer_instance

/-- The first `keyNum` (key, value) pairs of a leaf. -/
def Node.pairs (n : Node) : List (Bytes × Bytes) :=
  ((n.keys.take n.keyNum.val.toNat).zip (n.pointers.take n.keyNum.val.toNat)).filterMap fun kp =>
    match kp.2 with
    | .value v => some (kp.1, v)
    | .child _ => none

/-- The leaves `ls` of heap `h` form the chain of tree `t` read forwards:
`leftmost` is the first leaf, each `next(false)` is the following leaf, nil
after the last one, and every leaf is a non-empty well-formed leaf. -/
def ForwardChain (h : Heap) (t : BPTree) (ls : List Addr) : Prop :=
  ls ≠ [] ∧ Linked h Node.nextLeaf t.leftmost ls ∧ ∀ a ∈ ls, LeafOk (h a)

/-- The same leaves read backwards: `rightmost` is the last leaf, each
`next(true)` is the preceding leaf, nil before the first one. -/
def BackwardChain (h : Heap) (t : BPTree) (ls : List Addr) : Prop :=
  ls ≠ [] ∧ Linked h Node.prevLeaf t.rightmost ls.reverse ∧ ∀ a ∈ ls, LeafOk (h a)

/-- All pairs of the chain, leaf after leaf. -/
def chainPairs (h : Heap) (ls : List Addr) : List (Bytes × Bytes) :=
  (ls.map fun a => (h a).pairs).flatten

/-- Modelled from the spec: the key comparator, declared outside
`iterator.go`. Keys compare by unsigned lexicographic byte order. -/
def bytesLt : Bytes → Bytes → Bool
  | [], [] => false
  | [], _ :: _ => true
  | _ :: _, [] => false
  | x :: xs, y :: ys =>
    decide (x.toNat < y.toNat) || (decide (x.toNat = y.toNat) && bytesLt xs ys)

/-- The keys of a leaf's pairs. -/
def Node.pairKeys (n : Node) : List Bytes := n.pairs.map Prod.fst

/-- Keys are strictly increasing within each leaf of `ls` and across
consecutive leaves: the last key of a leaf is below the first key of the
leaf that follows it. -/
def ChainSorted (h : Heap) (ls : List Addr) : Prop :=
  (∀ a ∈ ls, List.Chain' (fun x y => bytesLt x y = true) (h a).pairKeys) ∧
    List.Chain' (fun a b => ∀ x ∈ (h a).pairKeys.getLast?, ∀ y ∈ (h b).pairKeys.head?,
      bytesLt x y = true) ls

/-! ## Cursors reached by one call -/

/-- The cursor a forward `Next` leaves behind when called at `(a, i)`. -/
def forwardStep (h : Heap) (a : Addr) (it : Iterator) : Iterator :=
  if it.i + 1 = (h a).keyNum then ⟨(h a).nextLeaf, 0, it.options⟩
  else ⟨some a, it.i + 1, it.options⟩

/-- The cursor a reverse `Next` leaves behind when called at `(a, i)`. -/
def reverseStep (h : Heap) (a : Addr) (it : Iterator) : Iterator :=
  if it.i - 1 = -1 then
    match (h a).prevLeaf with
    | some b => ⟨some b, (h b).keyNum - 1, it.options⟩
    | none => ⟨none, 0, it.options⟩
  else ⟨some a, it.i - 1, it.options⟩

/-- The cursor at which a reverse iterator enters the leaf behind pointer `p`. -/
def reverseEntry (h : Heap) (p : Option Addr) (o : IteratorOptions) : Iterator :=
  match p with
  | some b => ⟨some b, (h b).keyNum - 1, o⟩
  | none => ⟨none, 0, o⟩

/-- The number of keys held by the leaves `ls`. -/
def totalKeys (h : Heap) (ls : List Addr) : Nat :=
  (ls.map fun a => (h a).keyNum.val.toNat).sum

deriving instance DecidableEq for Except

/-! ## Concrete heaps -/

/-- A leaf holding the given keys and values, with the given sibling links. -/
def mkLeaf (keys values : List Bytes) (next prev : Option Addr) : Node :=
  ⟨keys, values.map Pointer.value, GoInt.wrap keys.length, next, prev⟩

/-- A heap of two chained leaves: keys `[1]`, `[2]` at address 0 and key `[3]`
at address 1 (and at every other address). -/
def twoLeafHeap : Heap := fun a =>
  if a = 0 then mkLeaf [[1], [2]] [[10], [20]] (some 1) none
  else mkLeaf [[3]] [[30]] none (some 0)

/-- The tree over `twoLeafHeap`. -/
def twoLeafTree : BPTree := ⟨some 0, some 1⟩

/-- A heap whose every address holds the one-key leaf of
`TestIteratorNextPanicAfterIteration`: key `[1]` with a nil value. -/
def oneKeyHeap : Heap := fun _ => mkLeaf [[1]] [[]] none none

/-- The tree over `oneKeyHeap`: address 0 is the first and the last leaf. -/
def oneKeyTree : BPTree := ⟨some 0, some 0⟩

/-- A heap whose every address holds an empty leaf. -/
def emptyHeap : Heap := fun _ => mkLeaf [] [] none none

/-- The empty tree: one empty leaf is the first and the last leaf. -/
def emptyTree : BPTree := ⟨some 0, some 0⟩

/-! ## Iterator objects under a sequence of calls -/

/-- A call made on an iterator object. -/
inductive Call where
  | hasNext
  | next
deriving DecidableEq

/-- The machine state: the heap and one iterator object. -/
structure Machine where
  heap : Heap
  it : Iterator

/-- The machine after one call. `HasNext` only reads. `Next` assigns to
`it.i` and `it.next` and to nothing else; each of its panics is raised before
the first assignment (the explicit panic and the slot reads precede `it.i++`
and `it.i--`), so after a panic the iterator object is as it was. -/
def Machine.call (m : Machine) : Call → Machine
  | .hasNext => m
  | .next =>
    match m.it.Next m.heap with
    | .ok (_, _, it') => ⟨m.heap, it'⟩
    | .error _ => m

/-- The machine after a sequence of calls. -/
def Machine.run (m : Machine) (calls : List Call) : Machine :=
  calls.foldl Machine.call m

/-- The iterator `it` is reached from the construction `t.Iterator(o)` by some
number of calls to `Next`. -/
def Reachable (h : Heap) (t : BPTree) (o : IteratorOptions) (it : Iterator) : Prop :=
  ∃ it0 n, t.Iterator h (some o) = .ok it0 ∧ callNext h n it0 = .ok it

/-- The cursor is exhausted (nil node) or sits on a slot in use of a leaf of
`ls`. -/
def Positioned (h : Heap) (ls : List Addr) (it : Iterator) : Prop :=
  it.next = none ∨
    ∃ a ∈ ls, it.next = some a ∧ 0 ≤ it.i.val ∧ it.i.val < (h a).keyNum.val

/-- The empty tree: one leaf with `keyNum = 0` is the first and the last
leaf. -/
def IsEmptyTree (h : Heap) (t : BPTree) : Prop :=
  ∃ a, t.leftmost = some a ∧ t.rightmost = some a ∧ (h a).keyNum = 0

/-- A well-formed tree: a chain of non-empty leaves linked in both
directions, or the empty tree. -/
def WellFormed (h : Heap) (t : BPTree) (ls : List Addr) : Prop :=
  (ForwardChain h t ls ∧ BackwardChain h t ls) ∨ IsEmptyTree h t

/-- A heap of three chained leaves whose middle leaf is empty: key `[1]` at
address 0, no key at address 1, key `[3]` at address 2 (and beyond). -/
def gapHeap : Heap := fun a =>
  if a = 0 then mkLeaf [[1]] [[10]] (some 1) none
  else if a = 1 then mkLeaf [] [] (some 2) (some 0)
  else mkLeaf [[3]] [[30]] none (some 1)

/-- The tree over `gapHeap`. -/
def gapTree : BPTree := ⟨some 0, some 2⟩

/-! ## The tree behind the leaf chain -/

/-- A key with its value. -/
abbrev Entry := Bytes × Bytes

/-- Modelled from the spec: what `split` hands to the parent, declared outside
`iterator.go`. A put into a node leaves the node, or splits it into the
original (left) node and a new (right) node with the promoted key. -/
inductive PutResult (α : Type) where
  | one (t : α)
  | two (l : α) (sep : Bytes) (r : α)

/-- Modelled from the spec: the nodes below the root, declared outside
`iterator.go`. A node of height 0 is a leaf, holding its keys with their
values in slot order; a node of height `n + 1` is an internal node, holding
its first child and, for each separator key, the child that follows it. -/
@[reducible] def TreeN : Nat → Type
  | 0 => List Entry
  | n + 1 => TreeN n × List (Bytes × TreeN n)

/-- Modelled from the spec: `node.search`, declared outside `iterator.go`.
Returns the slot such that all keys before it are `< key`. -/
def search (key : Bytes) : List Bytes → Nat
  | [] => 0
  | k :: ks => if bytesLt k key then search key ks + 1 else 0

/-- Modelled from the spec: `node.insertAt`, declared outside `iterator.go`.
Shifts the entries from slot `i` on right by one and stores `x` at slot `i`. -/
def insertAt {α : Type} (i : Nat) (x : α) (l : List α) : List α :=
  l.take i ++ x :: l.drop i

/-- Modelled from the spec: the leaf step of `Put`, declared outside
`iterator.go`. If the key already exists its value is overwritten in place,
otherwise the pair is inserted at its sorted position. -/
def leafPut (key value : Bytes) (es : List Entry) : List Entry :=
  let i := search key (es.map Prod.fst)
  match es[i]? with
  | some (k, _) => if k = key then es.set i (key, value) else insertAt i (key, value) es
  | none => insertAt i (key, value) es

/-- Modelled from the spec: the leaf step of `Get`, declared outside
`iterator.go`. An exact match search within the leaf. -/
def leafGet (key : Bytes) (es : List Entry) : Option Bytes :=
  match es[search key (es.map Prod.fst)]? with
  | some (k, v) => if k = key then some v else none
  | none => none

/-- Modelled from the spec: `node.split` on a leaf, declared outside
`iterator.go`. A leaf over the capacity `order - 1` is divided at its median
slot; the median key is copied into the promoted key and stays in the right
leaf. -/
def splitLeaf (order : Nat) (es : List Entry) : PutResult (List Entry) :=
  if order - 1 < es.length then
    match es.drop (es.length / 2) with
    | (k, v) :: tl => .two (es.take (es.length / 2)) k ((k, v) :: tl)
    | [] => .one es
  else .one es

/-- Modelled from the spec: `node.split` on an internal node, declared
outside `iterator.go`. A node over the capacity `order - 1` is divided at its
median slot; the median key is moved up and the right node receives the upper
half of the children. -/
def splitNode {α : Type} (order : Nat) (c : α) (rest : List (Bytes × α)) :
    PutResult (α × List (Bytes × α)) :=
  if order - 1 < rest.length then
    match rest.drop (rest.length / 2) with
    | (s, c') :: tl => .two (c, rest.take (rest.length / 2)) s (c', tl)
    | [] => .one (c, rest)
  else .one (c, rest)

/-- Modelled from the spec: the parent step of `Put` after a child returns,
declared outside `iterator.go`. The child is replaced by its new state and,
after a split, the promoted key and the new node are inserted behind it. -/
def splice {α : Type} : PutResult α → List (Bytes × α) → α × List (Bytes × α)
  | .one c, tl => (c, tl)
  | .two l s r, tl => (l, (s, r) :: tl)

/-- Modelled from the spec: the descent of `Put` through an internal node,
declared outside `iterator.go`. The put goes into the child in front of the
first separator above the key: a separator is the smallest key reachable
through the child behind it. -/
def putChildren {α : Type} (rec : α → PutResult α) (key : Bytes) :
    α → List (Bytes × α) → α × List (Bytes × α)
  | c, [] => splice (rec c) []
  | c, (s, c1) :: rest =>
    if bytesLt key s then splice (rec c) ((s, c1) :: rest)
    else
      let r := putChildren rec key c1 rest
      (c, (s, r.1) :: r.2)

/-- Modelled from the spec: the descent of `Get` through an internal node,
declared outside `iterator.go`. The same child as for `Put`. -/
def chooseChild {α : Type} (key : Bytes) : α → List (Bytes × α) → α
  | c, [] => c
  | c, (s, c1) :: rest => if bytesLt key s then c else chooseChild key c1 rest

/-- Modelled from the spec: `Put` below the root, declared outside
`iterator.go`. Descend to the leaf, put, and split every node that is over
capacity on the way back up. -/
def putN (order : Nat) (key value : Bytes) : (n : Nat) → TreeN n → PutResult (TreeN n)
  | 0, es => splitLeaf order (leafPut key value es)
  | n + 1, (c, rest) =>
    let r := putChildren (putN order key value n) key c rest
    splitNode order r.1 r.2

/-- Modelled from the spec: `Get` below the root, declared outside
`iterator.go`. Descend to the candidate leaf and search it. -/
def getN (key : Bytes) : (n : Nat) → TreeN n → Option Bytes
  | 0, es => leafGet key es
  | n + 1, (c, rest) => getN key n (chooseChild key c rest)

/-- Modelled from the spec: the leaf chain below a node, declared outside
`iterator.go`. The leaves in ascending key order. -/
def leavesN : (n : Nat) → TreeN n → List (List Entry)
  | 0, es => [es]
  | n + 1, (c, rest) => leavesN n c ++ (rest.map fun p => leavesN n p.2).flatten

/-- Modelled from the spec: the tree, declared outside `iterator.go`. The
maximum fan-out, fixed at creation, and the root. -/
structure Tree where
  order : Nat
  height : Nat
  root : TreeN height

/-- Modelled from the spec: `New`, declared outside `iterator.go`. Fails for
an order below 3; otherwise the tree is created empty, with a single empty
leaf as root. -/
def New (order : Nat) : Option Tree :=
  if order < 3 then none else some ⟨order, 0, ([] : List Entry)⟩

/-- Modelled from the spec: `BPTree.Put`, declared outside `iterator.go`.
When the root splits, a new root is created with exactly two children. -/
def Tree.Put (t : Tree) (key value : Bytes) : Tree :=
  match putN t.order key value t.height t.root with
  | .one r => ⟨t.order, t.height, r⟩
  | .two l s r => ⟨t.order, t.height + 1, (l, [(s, r)])⟩

/-- Modelled from the spec: `BPTree.Get`, declared outside `iterator.go`.
Returns the value and `found = true` on an exact match, `found = false`
otherwise. -/
def Tree.Get (t : Tree) (key : Bytes) : Bytes × Bool :=
  match getN key t.height t.root with
  | some v => (v, true)
  | none => ([], false)

/-- Modelled from the spec: the leaf chain of a tree, declared outside
`iterator.go`. -/
def Tree.leaves (t : Tree) : List (List Entry) := leavesN t.height t.root

/-- The call sequence `tree.Put(k1, v1); tree.Put(k2, v2); ...` of the
tests. -/
def Tree.puts (t : Tree) (ops : List Entry) : Tree :=
  ops.foldl (fun t kv => t.Put kv.1 kv.2) t

/-- The puts of `TestIterator`: single-byte keys with their decimal strings
as values. -/
def iteratorCases : List Entry :=
  [([11], [49,49]), ([18], [49, 56]), ([7], [55]), ([15], [49,53]), ([0], [48]), ([16], [49,54]),
   ([14], [49,52]), ([33], [51,51]), ([25], [50,53]), ([42], [52,50]), ([60], [54,48]),
   ([2], [50]), ([1], [49]), ([74], [55,52])]

/-- The sorted association list after a put of `key`: the value is replaced
where the key is present, the pair is inserted before the first larger key
otherwise. -/
def leafInsert (key value : Bytes) : List Entry → List Entry
  | [] => [(key, value)]
  | (k, v) :: es =>
    if bytesLt k key then (k, v) :: leafInsert key value es
    else if k = key then (key, value) :: es
    else (key, value) :: (k, v) :: es

/-- `lo ≤ key`, with no bound when `lo` is nil. -/
def lowerOk (lo : Option Bytes) (key : Bytes) : Prop := ∀ l ∈ lo, bytesLt key l = false

/-- `lo < key`, with no bound when `lo` is nil. -/
def lowerLt (lo : Option Bytes) (key : Bytes) : Prop := ∀ l ∈ lo, bytesLt l key = true

/-- `key < hi`, with no bound when `hi` is nil. -/
def upperOk (key : Bytes) (hi : Option Bytes) : Prop := ∀ u ∈ hi, bytesLt key u = true

/-- A leaf with strictly increasing keys, all within `[lo, hi)`. -/
def leafBounded (lo hi : Option Bytes) (es : List Entry) : Prop :=
  List.Pairwise (fun a b => bytesLt a.1 b.1 = true) es ∧
    ∀ e ∈ es, lowerOk lo e.1 ∧ upperOk e.1 hi

/-- The children `c, rest` of an internal node partition `[lo, hi)` at the
separator keys. -/
def childrenBounded {α : Type} (P : Option Bytes → Option Bytes → α → Prop) :
    Option Bytes → Option Bytes → α → List (Bytes × α) → Prop
  | lo, hi, c, [] => P lo hi c
  | lo, hi, c, (s, c1) :: rest =>
    lowerLt lo s ∧ upperOk s hi ∧ P lo (some s) c ∧ childrenBounded P (some s) hi c1 rest

/-- The search-tree invariant of a node of height `n` with key range
`[lo, hi)`. -/
def BoundedN : (n : Nat) → Option Bytes → Option Bytes → TreeN n → Prop
  | 0, lo, hi, es => leafBounded lo hi es
  | n + 1, lo, hi, (c, rest) => childrenBounded (BoundedN n) lo hi c rest

/-- All entries below a node, in leaf order. -/
def entriesN (n : Nat) (t : TreeN n) : List Entry := (leavesN n t).flatten

/-- The leaves of a put result. -/
def PutResult.leaves (n : Nat) : PutResult (TreeN n) → List (List Entry)
  | .one t => leavesN n t
  | .two l _ r => leavesN n l ++ leavesN n r

/-- The value stored under `key` in an association list. -/
def assoc (key : Bytes) (es : List Entry) : Option Bytes :=
  (es.find? fun e => e.1 = key).map Prod.snd

/-- The search-tree invariant of a put result with key range `[lo, hi)`. -/
def PutResult.Bounded (n : Nat) (lo hi : Option Bytes) : PutResult (TreeN n) → Prop
  | .one t => BoundedN n lo hi t
  | .two l s r => lowerLt lo s ∧ upperOk s hi ∧ BoundedN n lo (some s) l ∧ BoundedN n (some s) hi r

/-- A leaf as `Put` leaves it: not empty and within the capacity `order - 1`. -/
def GoodLeaf (order : Nat) (l : List Entry) : Prop := l ≠ [] ∧ l.length ≤ order - 1

/-- All entries of a tree, in leaf order. -/
def Tree.entries (t : Tree) : List Entry := entriesN t.height t.root

/-- The invariant of a tree: a fan-out of at least 3, the search-tree
invariant, leaves within capacity, and no empty leaf below an internal node. -/
def Tree.Inv (t : Tree) : Prop :=
  3 ≤ t.order ∧ BoundedN t.height none none t.root ∧
    (∀ l ∈ t.leaves, l.length ≤ t.order - 1) ∧ (t.height = 0 ∨ ∀ l ∈ t.leaves, l ≠ [])

/-- The value of the latest put of `key` among `ops`, if there is one. -/
def lastPut (key : Bytes) (ops : List Entry) : Option Bytes := assoc key ops.reverse

/-- Modelled from the spec: the leaf nodes that `Put` maintains, declared
outside `iterator.go`. The leaf at address `a` of the chain that holds the
leaves `ls` in ascending key order: its keys, its values, its `keyNum`, and
the `next` and `prev` references to the neighbouring leaves, nil at the chain
ends. -/
def chainNode (ls : List (List Entry)) (a : Addr) : Node :=
  ⟨(ls.getD a []).map Prod.fst, (ls.getD a []).map fun e => Pointer.value e.2,
    GoInt.wrap (ls.getD a []).length,
    if a + 1 < ls.length then some (a + 1) else none,
    if 0 < a ∧ a < ls.length then some (a - 1) else none⟩

/-- Modelled from the spec: the leaf nodes of a tree, declared outside
`iterator.go`, as the heap the iterator walks. -/
def Tree.heap (t : Tree) : Heap := chainNode t.leaves

/-- Modelled from the spec: the `leftmost` and `rightmost` of a tree,
declared outside `iterator.go`: the cached references to the first and the
last leaf. -/
def Tree.ends (t : Tree) : BPTree := ⟨some 0, some (t.leaves.length - 1)⟩

/-- The three puts of `ExampleIterator`, as UTF-8 bytes: apple/sweet,
banana/honey, cinnamon/savoury. -/
def fruitPuts : List Entry :=
  [([97, 112, 112, 108, 101], [115, 119, 101, 101, 116]),
   ([98, 97, 110, 97, 110, 97], [104, 111, 110, 101, 121]),
   ([99, 105, 110, 110, 97, 109, 111, 110], [115, 97, 118, 111, 117, 114, 121])]

/-! ## Machine integer facts -/

namespace GoInt

theorem ext_val {a b : GoInt} (hab : a.val = b.val) : a = b := by
  cases a; cases b; simp_all

theorem val_zero : (0 : GoInt).val = 0 := by decide

theorem val_one : (1 : GoInt).val = 1 := by decide

theorem val_neg_one : (-1 : GoInt).val = -1 := by decide

theorem val_add (a b : GoInt) : (a + b).val = wrapInt (a.val + b.val) := rfl

theorem val_sub (a b : GoInt) : (a - b).val = wrapInt (a.val - b.val) := rfl

theorem val_succ (a : GoInt) (ha : a.val < 9223372036854775807) :
    (a + 1).val = a.val + 1 := by
  have hlo := a.lo
  rw [val_add, val_one]; unfold wrapInt; omega

theorem val_pred (a : GoInt) (ha : -9223372036854775808 < a.val) :
    (a - 1).val = a.val - 1 := by
  have hhi := a.hi
  rw [val_sub, val_one]; unfold wrapInt; omega

end GoInt

/-! ## One call of `Next` -/

theorem index_ok {α : Type} (s : List α) (i : GoInt) (x : α) (h0 : 0 ≤ i.val)
    (hx : s[i.val.toNat]? = some x) : index s i = .ok x := by
  simp [index, h0, hx]

theorem index_ok_iff {α : Type} (s : List α) (i : GoInt) (x : α) :
    index s i = .ok x ↔ 0 ≤ i.val ∧ s[i.val.toNat]? = some x := by
  unfold index
  split
  · rename_i h0
    cases hs : s[i.val.toNat]? <;> simp [h0]
  · rename_i h0
    simp [h0]

theorem next_forward (h : Heap) (it : Iterator) (a : Addr) (k v : Bytes)
    (hrev : it.options.reverse = false) (hnode : it.next = some a)
    (hlt : it.i.val < (h a).keyNum.val)
    (hk : index (h a).keys it.i = .ok k)
    (hv : index (h a).pointers it.i = .ok (.value v)) :
    it.Next h = .ok (k, v, forwardStep h a it) := by
  have hhas : it.HasNext h = true := by simp [Iterator.HasNext, hrev, hnode, hlt]
  unfold Iterator.Next forwardStep
  simp only [hhas, hnode, hrev, hk, hv, Pointer.asValue, Node.next]
  cases hn : (h a).nextLeaf <;> by_cases hi : it.i + 1 = (h a).keyNum <;>
    simp [hi, Pointer.asNode, bind, Except.bind, pure, Except.pure]

theorem next_reverse (h : Heap) (it : Iterator) (a : Addr) (k v : Bytes)
    (hrev : it.options.reverse = true) (hnode : it.next = some a)
    (hge : 0 ≤ it.i.val)
    (hk : index (h a).keys it.i = .ok k)
    (hv : index (h a).pointers it.i = .ok (.value v)) :
    it.Next h = .ok (k, v, reverseStep h a it) := by
  have hhas : it.HasNext h = true := by simp [Iterator.HasNext, hrev, hnode, hge]
  unfold Iterator.Next reverseStep
  simp only [hhas, hnode, hrev, hk, hv, Pointer.asValue, Node.next]
  cases hn : (h a).prevLeaf <;> by_cases hi : it.i - 1 = -1 <;>
    simp [hi, Pointer.asNode, bind, Except.bind, pure, Except.pure]

theorem hasNext_forward (h : Heap) (node : Option Addr) (i : GoInt) (o : IteratorOptions)
    (ho : o.reverse = false) :
    Iterator.HasNext h ⟨node, i, o⟩ = true ↔ ∃ a, node = some a ∧ i.val < (h a).keyNum.val := by
  cases node <;> simp [Iterator.HasNext, ho]

theorem hasNext_reverse (h : Heap) (node : Option Addr) (i : GoInt) (o : IteratorOptions)
    (ho : o.reverse = true) :
    Iterator.HasNext h ⟨node, i, o⟩ = true ↔ node ≠ none ∧ 0 ≤ i.val := by
  cases node <;> simp [Iterator.HasNext, ho]

theorem next_error_of_not_hasNext (h : Heap) (it : Iterator) (hn : it.HasNext h = false) :
    it.Next h = .error .noNextNode := by
  simp [Iterator.Next, hn]

/-- What a successful forward `Next` returns, read off the code. -/
theorem next_forward_ok_iff (h : Heap) (it : Iterator) (a : Addr)
    (hrev : it.options.reverse = false) (hnode : it.next = some a)
    (hhas : it.HasNext h = true) (k v : Bytes) (it' : Iterator) :
    it.Next h = .ok (k, v, it') ↔
      index (h a).keys it.i = .ok k ∧ index (h a).pointers it.i = .ok (.value v) ∧
        it' = forwardStep h a it := by
  have hlt : it.i.val < (h a).keyNum.val := by
    simpa [Iterator.HasNext, hrev, hnode] using hhas
  constructor
  · intro hN
    cases hk : index (h a).keys it.i with
    | error e => simp [Iterator.Next, hhas, hnode, hrev, hk, bind, Except.bind] at hN
    | ok k' =>
      cases hp : index (h a).pointers it.i with
      | error e => simp [Iterator.Next, hhas, hnode, hrev, hk, hp, bind, Except.bind] at hN
      | ok p =>
        cases p with
        | child c =>
          simp [Iterator.Next, hhas, hnode, hrev, hk, hp, bind, Except.bind,
            Pointer.asValue] at hN
        | value v' =>
          rw [next_forward h it a k' v' hrev hnode hlt hk hp] at hN
          simp only [Except.ok.injEq, Prod.mk.injEq] at hN
          obtain ⟨h1, h2, h3⟩ := hN
          subst h1 h2 h3
          exact ⟨rfl, rfl, rfl⟩
  · rintro ⟨hk, hp, rfl⟩
    exact next_forward h it a k v hrev hnode hlt hk hp

theorem next_reverse_ok_iff (h : Heap) (it : Iterator) (a : Addr)
    (hrev : it.options.reverse = true) (hnode : it.next = some a)
    (hhas : it.HasNext h = true) (k v : Bytes) (it' : Iterator) :
    it.Next h = .ok (k, v, it') ↔
      index (h a).keys it.i = .ok k ∧ index (h a).pointers it.i = .ok (.value v) ∧
        it' = reverseStep h a it := by
  have hge : 0 ≤ it.i.val := by
    simpa [Iterator.HasNext, hrev, hnode] using hhas
  constructor
  · intro hN
    cases hk : index (h a).keys it.i with
    | error e => simp [Iterator.Next, hhas, hnode, hrev, hk, bind, Except.bind] at hN
    | ok k' =>
      cases hp : index (h a).pointers it.i with
      | error e => simp [Iterator.Next, hhas, hnode, hrev, hk, hp, bind, Except.bind] at hN
      | ok p =>
        cases p with
        | child c =>
          simp [Iterator.Next, hhas, hnode, hrev, hk, hp, bind, Except.bind,
            Pointer.asValue] at hN
        | value v' =>
          rw [next_reverse h it a k' v' hrev hnode hge hk hp] at hN
          simp only [Except.ok.injEq, Prod.mk.injEq] at hN
          obtain ⟨h1, h2, h3⟩ := hN
          subst h1 h2 h3
          exact ⟨rfl, rfl, rfl⟩
  · rintro ⟨hk, hp, rfl⟩
    exact next_reverse h it a k v hrev hnode hge hk hp
/-! ## Leaves -/

theorem filterMap_getElem?_of_forall {α β : Type} (f : α → Option β) (l : List α)
    (hl : ∀ x ∈ l, (f x).isSome = true) (j : Nat) :
    (l.filterMap f)[j]? = l[j]?.bind f := by
  induction l generalizing j with
  | nil => simp
  | cons x l ih =>
    have hx : (f x).isSome = true := hl x (by simp)
    obtain ⟨y, hy⟩ := Option.isSome_iff_exists.mp hx
    have ih2 := ih (fun z hz => hl z (by simp [hz]))
    cases j with
    | zero => simp [List.filterMap_cons, hy]
    | succ j => simp [List.filterMap_cons, hy, ih2 j]

theorem filterMap_length_of_forall {α β : Type} (f : α → Option β) (l : List α)
    (hl : ∀ x ∈ l, (f x).isSome = true) : (l.filterMap f).length = l.length := by
  induction l with
  | nil => simp
  | cons x l ih =>
    have hx : (f x).isSome = true := hl x (by simp)
    obtain ⟨y, hy⟩ := Option.isSome_iff_exists.mp hx
    have ih2 := ih (fun z hz => hl z (by simp [hz]))
    simp [List.filterMap_cons, hy, ih2]

theorem LeafOk.slot {n : Node} (hn : LeafOk n) (j : Nat) (hj : (j : Int) < n.keyNum.val) :
    ∃ k v, n.keys[j]? = some k ∧ n.pointers[j]? = some (.value v) := by
  obtain ⟨h1, h2, h3, h4⟩ := hn
  have hjk : j < n.keys.length := by omega
  have hjp : j < n.pointers.length := by omega
  have hmem : n.pointers[j] ∈ n.pointers.take n.keyNum.val.toNat := by
    rw [List.mem_iff_getElem]
    refine ⟨j, ?_, ?_⟩
    · simp; omega
    · simp
  have hv := h4 _ hmem
  cases hp : n.pointers[j] with
  | child c => rw [hp] at hv; simp [Pointer.isValue] at hv
  | value v =>
    exact ⟨n.keys[j], v, List.getElem?_eq_getElem hjk, by rw [List.getElem?_eq_getElem hjp, hp]⟩

theorem LeafOk.isSome_of_mem {n : Node} (hn : LeafOk n) :
    ∀ x ∈ (n.keys.take n.keyNum.val.toNat).zip (n.pointers.take n.keyNum.val.toNat),
      (match x.2 with
        | Pointer.value v => some (x.1, v)
        | Pointer.child _ => none).isSome = true := by
  intro x hx
  have hx2 : x.2 ∈ n.pointers.take n.keyNum.val.toNat := (List.of_mem_zip hx).2
  have hv := hn.2.2.2 _ hx2
  cases hp : x.2 with
  | child c => rw [hp] at hv; simp [Pointer.isValue] at hv
  | value v => simp

theorem LeafOk.pairs_getElem? {n : Node} (hn : LeafOk n) (j : Nat) (k v : Bytes)
    (hj : (j : Int) < n.keyNum.val)
    (hk : n.keys[j]? = some k) (hv : n.pointers[j]? = some (.value v)) :
    n.pairs[j]? = some (k, v) := by
  unfold Node.pairs
  rw [filterMap_getElem?_of_forall _ _ hn.isSome_of_mem]
  have hjt : j < n.keyNum.val.toNat := by omega
  have hz : ((n.keys.take n.keyNum.val.toNat).zip (n.pointers.take n.keyNum.val.toNat))[j]?
      = some (k, Pointer.value v) := by
    rw [List.getElem?_zip_eq_some]
    simp [List.getElem?_take, hjt, hk, hv]
  simp [hz]

theorem LeafOk.pairs_length {n : Node} (hn : LeafOk n) :
    n.pairs.length = n.keyNum.val.toNat := by
  unfold Node.pairs
  rw [filterMap_length_of_forall _ _ hn.isSome_of_mem]
  obtain ⟨h1, h2, h3, h4⟩ := hn
  simp
  omega

/-- Reading slot `i` of a well-formed leaf: both index expressions succeed
and give the `i`-th pair. -/
theorem LeafOk.read {n : Node} (hn : LeafOk n) (i : GoInt) (h0 : 0 ≤ i.val)
    (hi : i.val < n.keyNum.val) :
    ∃ k v, index n.keys i = .ok k ∧ index n.pointers i = .ok (.value v) ∧
      n.pairs[i.val.toNat]? = some (k, v) := by
  have hj : ((i.val.toNat : Nat) : Int) < n.keyNum.val := by omega
  obtain ⟨k, v, hk, hv⟩ := hn.slot i.val.toNat hj
  exact ⟨k, v, index_ok _ _ _ h0 hk, index_ok _ _ _ h0 hv, hn.pairs_getElem? _ k v hj hk hv⟩

/-! ## Draining a chain -/

theorem drain_of_not_hasNext (h : Heap) (fuel : Nat) (it : Iterator)
    (hn : it.HasNext h = false) : drain h fuel it = some ([], it) := by
  cases fuel <;> simp [drain, hn]

theorem drain_succ_of_next (h : Heap) (fuel : Nat) (it it' : Iterator) (k v : Bytes)
    (hn : it.HasNext h = true) (hN : it.Next h = .ok (k, v, it')) :
    drain h (fuel + 1) it = (drain h fuel it').map fun r => ((k, v) :: r.1, r.2) := by
  simp [drain, hn, hN]

/-- Forward drain of the rest of a leaf from slot `i`. -/
theorem drain_forward_leaf (h : Heap) (a : Addr) (hok : LeafOk (h a)) (o : IteratorOptions)
    (ho : o.reverse = false) (rest : List (Bytes × Bytes)) (fin : Iterator) (fuel : Nat)
    (hrest : drain h fuel ⟨(h a).nextLeaf, 0, o⟩ = some (rest, fin)) :
    ∀ (d : Nat) (i : GoInt), 0 ≤ i.val → i.val < (h a).keyNum.val →
      ((h a).keyNum.val - i.val).toNat = d + 1 →
      drain h (fuel + (d + 1)) ⟨some a, i, o⟩ =
        some ((h a).pairs.drop i.val.toNat ++ rest, fin) := by
  intro d
  induction d with
  | zero =>
    intro i h0 hi hd
    obtain ⟨k, v, hk, hv, hp⟩ := hok.read i h0 hi
    have hhas : Iterator.HasNext h ⟨some a, i, o⟩ = true := by
      simp [Iterator.HasNext, ho, hi]
    have hN := next_forward h ⟨some a, i, o⟩ a k v ho rfl hi hk hv
    have hkn := (h a).keyNum.hi
    have hstep : forwardStep h a ⟨some a, i, o⟩ = ⟨(h a).nextLeaf, 0, o⟩ := by
      have : i + 1 = (h a).keyNum := by
        apply GoInt.ext_val
        rw [GoInt.val_succ i (by omega)]; omega
      simp [forwardStep, this]
    rw [hstep] at hN
    rw [show fuel + (0 + 1) = fuel + 1 from rfl, drain_succ_of_next h fuel _ _ k v hhas hN, hrest]
    have hlen := hok.pairs_length
    have hdrop : (h a).pairs.drop i.val.toNat = [(k, v)] := by
      have hlt : i.val.toNat < (h a).pairs.length := by omega
      rw [List.drop_eq_getElem_cons hlt]
      have : (h a).pairs[i.val.toNat] = (k, v) := by
        have := List.getElem?_eq_getElem hlt
        rw [hp] at this
        exact (Option.some.inj this).symm
      rw [this, List.drop_of_length_le (by omega)]
    simp [hdrop]
  | succ d ih =>
    intro i h0 hi hd
    obtain ⟨k, v, hk, hv, hp⟩ := hok.read i h0 hi
    have hhas : Iterator.HasNext h ⟨some a, i, o⟩ = true := by
      simp [Iterator.HasNext, ho, hi]
    have hN := next_forward h ⟨some a, i, o⟩ a k v ho rfl hi hk hv
    have hkn := (h a).keyNum.hi
    have hval : (i + 1).val = i.val + 1 := GoInt.val_succ i (by omega)
    have hstep : forwardStep h a ⟨some a, i, o⟩ = ⟨some a, i + 1, o⟩ := by
      have : i + 1 ≠ (h a).keyNum := by
        intro hc
        have := congrArg GoInt.val hc
        omega
      simp [forwardStep, this]
    rw [hstep] at hN
    rw [show fuel + (d + 1 + 1) = (fuel + (d + 1)) + 1 from rfl,
      drain_succ_of_next h _ _ _ k v hhas hN,
      ih (i + 1) (by omega) (by omega) (by omega)]
    have hlen := hok.pairs_length
    have hlt : i.val.toNat < (h a).pairs.length := by omega
    have hdrop : (h a).pairs.drop i.val.toNat = (k, v) :: (h a).pairs.drop (i + 1).val.toNat := by
      rw [List.drop_eq_getElem_cons hlt]
      have : (h a).pairs[i.val.toNat] = (k, v) := by
        have := List.getElem?_eq_getElem hlt
        rw [hp] at this
        exact (Option.some.inj this).symm
      rw [this, hval]
      congr 2
      omega
    simp [hdrop]

/-- Forward drain of a chain entered at its first leaf. -/
theorem drain_forward_chain (h : Heap) (o : IteratorOptions) (ho : o.reverse = false)
    (ls : List Addr) : ∀ (p : Option Addr), Linked h Node.nextLeaf p ls →
      (∀ a ∈ ls, LeafOk (h a)) → ∀ fuel, (chainPairs h ls).length ≤ fuel →
      drain h fuel ⟨p, 0, o⟩ = some (chainPairs h ls, ⟨none, 0, o⟩) := by
  induction ls with
  | nil =>
    intro p hp _ fuel _
    simp only [Linked] at hp
    subst hp
    rw [drain_of_not_hasNext h fuel _ (by simp [Iterator.HasNext, ho])]
    simp [chainPairs]
  | cons a rest ih =>
    intro p hp hok fuel hfuel
    obtain ⟨hpa, hlink⟩ := hp
    subst hpa
    have hoka : LeafOk (h a) := hok a (by simp)
    have hlen := hoka.pairs_length
    have h1 := hoka.1
    have hcp : chainPairs h (a :: rest) = (h a).pairs ++ chainPairs h rest := by
      simp [chainPairs]
    rw [hcp, List.length_append] at hfuel
    have hrest := ih _ hlink (fun b hb => hok b (by simp [hb]))
      (fuel - (h a).pairs.length) (by omega)
    have hd : ((h a).keyNum.val - (0 : GoInt).val).toNat = ((h a).pairs.length - 1) + 1 := by
      rw [GoInt.val_zero]; omega
    have := drain_forward_leaf h a hoka o ho _ _ _ hrest ((h a).pairs.length - 1) 0
      (by rw [GoInt.val_zero]) (by rw [GoInt.val_zero]; omega) hd
    rw [show fuel - (h a).pairs.length + ((h a).pairs.length - 1 + 1) = fuel by omega] at this
    rw [this, hcp, GoInt.val_zero]
    simp
/-- Reverse drain of the start of a leaf from slot `i` downwards. -/
theorem drain_reverse_leaf (h : Heap) (a : Addr) (hok : LeafOk (h a)) (o : IteratorOptions)
    (ho : o.reverse = true) (rest : List (Bytes × Bytes)) (fin : Iterator) (fuel : Nat)
    (hrest : drain h fuel (reverseEntry h (h a).prevLeaf o) = some (rest, fin)) :
    ∀ (d : Nat) (i : GoInt), i.val = d → i.val < (h a).keyNum.val →
      drain h (fuel + (d + 1)) ⟨some a, i, o⟩ =
        some (((h a).pairs.take (d + 1)).reverse ++ rest, fin) := by
  intro d
  induction d with
  | zero =>
    intro i hd hi
    have h0 : 0 ≤ i.val := by omega
    obtain ⟨k, v, hk, hv, hp⟩ := hok.read i h0 hi
    have hhas : Iterator.HasNext h ⟨some a, i, o⟩ = true := by
      simp [Iterator.HasNext, ho, h0]
    have hN := next_reverse h ⟨some a, i, o⟩ a k v ho rfl h0 hk hv
    have hstep : reverseStep h a ⟨some a, i, o⟩ = reverseEntry h (h a).prevLeaf o := by
      have : i - 1 = -1 := by
        apply GoInt.ext_val
        rw [GoInt.val_pred i (by omega), GoInt.val_neg_one]; omega
      simp only [reverseStep, this, if_true, reverseEntry]
    rw [hstep] at hN
    rw [show fuel + (0 + 1) = fuel + 1 from rfl, drain_succ_of_next h fuel _ _ k v hhas hN, hrest]
    have hi0 : i.val.toNat = 0 := by omega
    rw [hi0] at hp
    have htake : (h a).pairs.take (0 + 1) = [(k, v)] := by
      rw [List.take_succ, hp]; simp
    simp [htake]
  | succ d ih =>
    intro i hd hi
    have h0 : 0 ≤ i.val := by omega
    obtain ⟨k, v, hk, hv, hp⟩ := hok.read i h0 hi
    have hhas : Iterator.HasNext h ⟨some a, i, o⟩ = true := by
      simp [Iterator.HasNext, ho, h0]
    have hN := next_reverse h ⟨some a, i, o⟩ a k v ho rfl h0 hk hv
    have hval : (i - 1).val = i.val - 1 := GoInt.val_pred i (by omega)
    have hstep : reverseStep h a ⟨some a, i, o⟩ = ⟨some a, i - 1, o⟩ := by
      have : i - 1 ≠ -1 := by
        intro hc
        have := congrArg GoInt.val hc
        rw [GoInt.val_neg_one] at this
        omega
      simp [reverseStep, this]
    rw [hstep] at hN
    rw [show fuel + (d + 1 + 1) = (fuel + (d + 1)) + 1 from rfl,
      drain_succ_of_next h _ _ _ k v hhas hN,
      ih (i - 1) (by omega) (by omega)]
    have hid : i.val.toNat = d + 1 := by omega
    rw [hid] at hp
    have htake : (h a).pairs.take (d + 1 + 1) = (h a).pairs.take (d + 1) ++ [(k, v)] := by
      rw [List.take_succ, hp]; simp
    simp [htake]

/-- Reverse drain of a chain entered at its last leaf; `ls` lists the leaves
in the order visited. -/
theorem drain_reverse_chain (h : Heap) (o : IteratorOptions) (ho : o.reverse = true)
    (ls : List Addr) : ∀ (p : Option Addr), Linked h Node.prevLeaf p ls →
      (∀ a ∈ ls, LeafOk (h a)) → ∀ fuel,
      ((ls.map fun a => (h a).pairs.reverse).flatten).length ≤ fuel →
      drain h fuel (reverseEntry h p o) =
        some ((ls.map fun a => (h a).pairs.reverse).flatten, ⟨none, 0, o⟩) := by
  induction ls with
  | nil =>
    intro p hp _ fuel _
    simp only [Linked] at hp
    subst hp
    rw [drain_of_not_hasNext h fuel _ (by simp [reverseEntry, Iterator.HasNext, ho])]
    simp [reverseEntry]
  | cons a rest ih =>
    intro p hp hok fuel hfuel
    obtain ⟨hpa, hlink⟩ := hp
    subst hpa
    have hoka : LeafOk (h a) := hok a (by simp)
    have hlen := hoka.pairs_length
    have h1 := hoka.1
    have hkn := (h a).keyNum.lo
    simp only [List.map_cons, List.flatten_cons, List.length_append, List.length_reverse] at hfuel ⊢
    have hrest := ih _ hlink (fun b hb => hok b (by simp [hb]))
      (fuel - (h a).pairs.length) (by omega)
    have hval : ((h a).keyNum - 1).val = (h a).keyNum.val - 1 := GoInt.val_pred _ (by omega)
    have := drain_reverse_leaf h a hoka o ho _ _ _ hrest ((h a).pairs.length - 1)
      ((h a).keyNum - 1) (by omega) (by omega)
    rw [show fuel - (h a).pairs.length + ((h a).pairs.length - 1 + 1) = fuel by omega,
      show (h a).pairs.length - 1 + 1 = (h a).pairs.length by omega, List.take_length] at this
    exact this
/-! ## Calls without a `HasNext` test -/

theorem callNext_of_drain (h : Heap) : ∀ (fuel : Nat) (it : Iterator)
    (ps : List (Bytes × Bytes)) (fin : Iterator), drain h fuel it = some (ps, fin) →
      callNext h ps.length it = .ok fin ∧ fin.HasNext h = false ∧
      (∀ m, m ≤ ps.length → ∃ it', callNext h m it = .ok it') ∧
      callNext h (ps.length + 1) it = .error .noNextNode := by
  intro fuel
  induction fuel with
  | zero =>
    intro it ps fin hd
    by_cases hn : it.HasNext h = true
    · simp [drain, hn] at hd
    · simp only [Bool.not_eq_true] at hn
      simp only [drain, hn, Bool.false_eq_true, if_false, Option.some.injEq, Prod.mk.injEq] at hd
      obtain ⟨rfl, rfl⟩ := hd
      refine ⟨rfl, hn, ?_, ?_⟩
      · intro m hm
        have : m = 0 := by simpa using hm
        subst this
        exact ⟨_, rfl⟩
      · simp [callNext, next_error_of_not_hasNext h _ hn]
  | succ fuel ih =>
    intro it ps fin hd
    by_cases hn : it.HasNext h = true
    · cases hN : it.Next h with
      | error e => simp [drain, hn, hN] at hd
      | ok r =>
        obtain ⟨k, v, it'⟩ := r
        rw [drain_succ_of_next h fuel it it' k v hn hN] at hd
        cases hd' : drain h fuel it' with
        | none => simp [hd'] at hd
        | some r' =>
          obtain ⟨ps', fin'⟩ := r'
          simp only [hd', Option.map_some', Option.some.injEq, Prod.mk.injEq] at hd
          obtain ⟨rfl, rfl⟩ := hd
          obtain ⟨h1, h2, h3, h4⟩ := ih it' ps' fin' hd'
          refine ⟨?_, h2, ?_, ?_⟩
          · simp [callNext, hN, h1]
          · intro m hm
            cases m with
            | zero => exact ⟨_, rfl⟩
            | succ m =>
              obtain ⟨it'', hit⟩ := h3 m (by simpa using hm)
              exact ⟨it'', by simp [callNext, hN, hit]⟩
          · simp only [List.length_cons, callNext, hN]
            exact h4
    · simp only [Bool.not_eq_true] at hn
      simp only [drain, hn, Bool.false_eq_true, if_false, Option.some.injEq, Prod.mk.injEq] at hd
      obtain ⟨rfl, rfl⟩ := hd
      refine ⟨rfl, hn, ?_, ?_⟩
      · intro m hm
        have : m = 0 := by simpa using hm
        subst this
        exact ⟨_, rfl⟩
      · simp [callNext, next_error_of_not_hasNext h _ hn]

/-! ## Key order -/

theorem bytesLt_trans : ∀ (x y z : Bytes), bytesLt x y = true → bytesLt y z = true →
    bytesLt x z = true
  | [], [], _, hxy, _ => by simp [bytesLt] at hxy
  | [], _ :: _, [], _, hyz => by simp [bytesLt] at hyz
  | [], _ :: _, _ :: _, _, _ => by simp [bytesLt]
  | _ :: _, [], _, hxy, _ => by simp [bytesLt] at hxy
  | _ :: _, _ :: _, [], _, hyz => by simp [bytesLt] at hyz
  | a :: x, b :: y, c :: z, hxy, hyz => by
    simp only [bytesLt, Bool.or_eq_true, Bool.and_eq_true, decide_eq_true_eq] at hxy hyz ⊢
    rcases hxy with hab | ⟨hab, hxy⟩ <;> rcases hyz with hbc | ⟨hbc, hyz⟩
    · left; omega
    · left; omega
    · left; omega
    · right; exact ⟨by omega, bytesLt_trans x y z hxy hyz⟩

theorem bytesLt_irrefl : ∀ (x : Bytes), bytesLt x x = false
  | [] => by simp [bytesLt]
  | a :: x => by simp [bytesLt, bytesLt_irrefl x]

theorem chainPairs_keys (h : Heap) (ls : List Addr) :
    (chainPairs h ls).map Prod.fst = (ls.map fun a => (h a).pairKeys).flatten := by
  induction ls with
  | nil => simp [chainPairs]
  | cons a rest ih =>
    simp only [chainPairs, List.map_cons, List.flatten_cons, List.map_append] at ih ⊢
    rw [ih]; rfl

/-- The keys of a sorted chain of non-empty leaves are strictly ascending. -/
theorem chain_keys_pairwise (h : Heap) (ls : List Addr) (hok : ∀ a ∈ ls, LeafOk (h a))
    (hs : ChainSorted h ls) :
    List.Pairwise (fun x y => bytesLt x y = true) ((chainPairs h ls).map Prod.fst) := by
  haveI : IsTrans Bytes (fun x y => bytesLt x y = true) := ⟨bytesLt_trans⟩
  rw [chainPairs_keys, ← List.chain'_iff_pairwise, List.chain'_flatten]
  · refine ⟨?_, ?_⟩
    · intro l hl
      obtain ⟨a, ha, rfl⟩ := List.mem_map.mp hl
      exact hs.1 a ha
    · rw [List.chain'_map]
      exact hs.2
  · intro hmem
    obtain ⟨a, ha, hnil⟩ := List.mem_map.mp hmem
    have hlen := (hok a ha).pairs_length
    have h1 := (hok a ha).1
    have : (h a).pairs.length = 0 := by
      have := congrArg List.length hnil
      simpa [Node.pairKeys] using this
    omega
/-! ## More facts used by the claims -/

theorem LeafOk.pairs_keys {n : Node} (hn : LeafOk n) :
    n.pairs.map Prod.fst = n.keys.take n.keyNum.val.toNat := by
  apply List.ext_getElem?
  intro j
  by_cases hj : (j : Int) < n.keyNum.val
  · obtain ⟨k, v, hk, hv⟩ := hn.slot j hj
    have hjt : j < n.keyNum.val.toNat := by omega
    simp [hn.pairs_getElem? j k v hj hk hv, List.getElem?_take, hjt, hk]
  · have hlen := hn.pairs_length
    have h1 : (n.pairs.map Prod.fst)[j]? = none := by
      apply List.getElem?_eq_none; simp; omega
    have h2 : (n.keys.take n.keyNum.val.toNat)[j]? = none := by
      apply List.getElem?_eq_none; simp; omega
    rw [h1, h2]

theorem LeafOk.pairs_values {n : Node} (hn : LeafOk n) :
    n.pairs.map (fun kv => Pointer.value kv.2) = n.pointers.take n.keyNum.val.toNat := by
  apply List.ext_getElem?
  intro j
  by_cases hj : (j : Int) < n.keyNum.val
  · obtain ⟨k, v, hk, hv⟩ := hn.slot j hj
    have hjt : j < n.keyNum.val.toNat := by omega
    simp [hn.pairs_getElem? j k v hj hk hv, List.getElem?_take, hjt, hv]
  · have hlen := hn.pairs_length
    have h1 : (n.pairs.map (fun kv => Pointer.value kv.2))[j]? = none := by
      apply List.getElem?_eq_none; simp; omega
    have h2 : (n.pointers.take n.keyNum.val.toNat)[j]? = none := by
      apply List.getElem?_eq_none; simp; omega
    rw [h1, h2]

theorem chainPairs_length (h : Heap) (ls : List Addr) (hok : ∀ a ∈ ls, LeafOk (h a)) :
    (chainPairs h ls).length = totalKeys h ls := by
  induction ls with
  | nil => simp [chainPairs, totalKeys]
  | cons a rest ih =>
    have ih2 := ih (fun b hb => hok b (by simp [hb]))
    have hlen := (hok a (by simp)).pairs_length
    simp only [chainPairs, totalKeys, List.map_cons, List.flatten_cons, List.length_append,
      List.sum_cons] at ih2 ⊢
    omega

theorem chainPairs_reverse (h : Heap) (ls : List Addr) :
    (ls.reverse.map fun a => (h a).pairs.reverse).flatten = (chainPairs h ls).reverse := by
  unfold chainPairs
  rw [List.reverse_flatten, List.map_reverse, List.map_map]
  rfl

theorem forward_start (h : Heap) (t : BPTree) (o : IteratorOptions) (ho : o.reverse = false) :
    t.Iterator h (some o) = .ok ⟨t.leftmost, 0, o⟩ := by
  simp [BPTree.Iterator, ho]

theorem reverse_start (h : Heap) (t : BPTree) (o : IteratorOptions) (ho : o.reverse = true)
    (r : Addr) (hr : t.rightmost = some r) :
    t.Iterator h (some o) = .ok ⟨some r, (h r).keyNum - 1, o⟩ := by
  simp [BPTree.Iterator, ho, hr]

theorem BackwardChain.rightmost {h : Heap} {t : BPTree} {ls : List Addr}
    (hb : BackwardChain h t ls) : ∃ r, t.rightmost = some r := by
  obtain ⟨hne, hl, _⟩ := hb
  cases hrev : ls.reverse with
  | nil => simp at hrev; exact absurd hrev hne
  | cons r rest =>
    rw [hrev] at hl
    exact ⟨r, hl.1⟩

/-- Forward drain from the iterator that `Iterator` builds. -/
theorem drain_forward (h : Heap) (t : BPTree) (ls : List Addr) (hf : ForwardChain h t ls)
    (fuel : Nat) (hfuel : (chainPairs h ls).length ≤ fuel) :
    drain h fuel ⟨t.leftmost, 0, ⟨false⟩⟩ = some (chainPairs h ls, ⟨none, 0, ⟨false⟩⟩) :=
  drain_forward_chain h ⟨false⟩ rfl ls t.leftmost hf.2.1 hf.2.2 fuel hfuel

/-- Reverse drain from the iterator that `Iterator` builds. -/
theorem drain_reverse (h : Heap) (t : BPTree) (ls : List Addr) (hb : BackwardChain h t ls)
    (fuel : Nat) (hfuel : (chainPairs h ls).length ≤ fuel) :
    drain h fuel (reverseEntry h t.rightmost ⟨true⟩) =
      some ((chainPairs h ls).reverse, ⟨none, 0, ⟨true⟩⟩) := by
  have := drain_reverse_chain h ⟨true⟩ rfl ls.reverse t.rightmost hb.2.1
    (fun a ha => hb.2.2 a (List.mem_reverse.mp ha)) fuel
    (by rw [chainPairs_reverse, List.length_reverse]; exact hfuel)
  rw [chainPairs_reverse] at this
  exact this

/-! ## Claims -/

/-- C1: over a well-formed forward leaf chain, the loop that calls `Next` while
`HasNext` holds, run on the iterator that `Iterator` builds, terminates and
yields exactly the concatenation in chain order of each leaf's first `keyNum`
(key, value) pairs, leaving the exhausted iterator; each leaf contributes
exactly its first `keyNum` keys and values; and when the keys are strictly
increasing within each leaf and across consecutive leaves, the yielded keys are
strictly ascending. -/
theorem forward_iteration_yields_chain (h : Heap) (t : BPTree) (ls : List Addr)
    (hf : ForwardChain h t ls) :
    ∃ it, t.Iterator h (some ⟨false⟩) = .ok it ∧
      (∀ fuel, totalKeys h ls ≤ fuel →
        drain h fuel it = some (chainPairs h ls, ⟨none, 0, ⟨false⟩⟩)) ∧
      (∀ a ∈ ls, (h a).pairs.map Prod.fst = (h a).keys.take (h a).keyNum.val.toNat ∧
        (h a).pairs.map (fun kv => Pointer.value kv.2) =
          (h a).pointers.take (h a).keyNum.val.toNat) ∧
      (ChainSorted h ls →
        List.Pairwise (fun x y => bytesLt x y = true) ((chainPairs h ls).map Prod.fst)) := by
  refine ⟨_, forward_start h t ⟨false⟩ rfl, ?_, ?_, ?_⟩
  · intro fuel hfuel
    exact drain_forward h t ls hf fuel (by rw [chainPairs_length h ls hf.2.2]; exact hfuel)
  · intro a ha
    exact ⟨(hf.2.2 a ha).pairs_keys, (hf.2.2 a ha).pairs_values⟩
  · exact chain_keys_pairwise h ls hf.2.2

theorem twoLeaf_forwardChain : ForwardChain twoLeafHeap twoLeafTree [0, 1] :=
  ⟨by decide, ⟨rfl, rfl, rfl⟩, by decide⟩

theorem twoLeaf_backwardChain : BackwardChain twoLeafHeap twoLeafTree [0, 1] :=
  ⟨by decide, ⟨rfl, rfl, rfl⟩, by decide⟩

/-- Witness of C1 on the two-leaf chain `[1], [2] | [3]`. -/
theorem forward_iteration_yields_chain_witness :
    ForwardChain twoLeafHeap twoLeafTree [0, 1] ∧
    ∃ it, twoLeafTree.Iterator twoLeafHeap (some ⟨false⟩) = .ok it ∧
      (∀ fuel, totalKeys twoLeafHeap [0, 1] ≤ fuel →
        drain twoLeafHeap fuel it =
          some (chainPairs twoLeafHeap [0, 1], ⟨none, 0, ⟨false⟩⟩)) ∧
      (∀ a ∈ [0, 1],
        (twoLeafHeap a).pairs.map Prod.fst =
          (twoLeafHeap a).keys.take (twoLeafHeap a).keyNum.val.toNat ∧
        (twoLeafHeap a).pairs.map (fun kv => Pointer.value kv.2) =
          (twoLeafHeap a).pointers.take (twoLeafHeap a).keyNum.val.toNat) ∧
      (ChainSorted twoLeafHeap [0, 1] →
        List.Pairwise (fun x y => bytesLt x y = true)
          ((chainPairs twoLeafHeap [0, 1]).map Prod.fst)) :=
  ⟨twoLeaf_forwardChain,
    forward_iteration_yields_chain twoLeafHeap twoLeafTree [0, 1] twoLeaf_forwardChain⟩

/-- C2: over a leaf chain that is well formed in both directions, draining a
reverse iterator yields exactly the reversal of what draining a forward
iterator yields. -/
theorem reverse_iteration_is_reversed (h : Heap) (t : BPTree) (ls : List Addr)
    (hf : ForwardChain h t ls) (hb : BackwardChain h t ls) :
    ∃ itf itr fwd, t.Iterator h (some ⟨false⟩) = .ok itf ∧
      t.Iterator h (some ⟨true⟩) = .ok itr ∧
      ∀ fuel, totalKeys h ls ≤ fuel →
        drain h fuel itf = some (fwd, ⟨none, 0, ⟨false⟩⟩) ∧
        drain h fuel itr = some (fwd.reverse, ⟨none, 0, ⟨true⟩⟩) := by
  obtain ⟨r, hr⟩ := hb.rightmost
  refine ⟨_, _, chainPairs h ls, forward_start h t ⟨false⟩ rfl,
    reverse_start h t ⟨true⟩ rfl r hr, ?_⟩
  intro fuel hfuel
  have hlen : (chainPairs h ls).length ≤ fuel := by
    rw [chainPairs_length h ls hf.2.2]; exact hfuel
  refine ⟨drain_forward h t ls hf fuel hlen, ?_⟩
  have := drain_reverse h t ls hb fuel hlen
  rw [hr] at this
  exact this

/-- Witness of C2 on the two-leaf chain `[1], [2] | [3]`. -/
theorem reverse_iteration_is_reversed_witness :
    ForwardChain twoLeafHeap twoLeafTree [0, 1] ∧ BackwardChain twoLeafHeap twoLeafTree [0, 1] ∧
    ∃ itf itr fwd, twoLeafTree.Iterator twoLeafHeap (some ⟨false⟩) = .ok itf ∧
      twoLeafTree.Iterator twoLeafHeap (some ⟨true⟩) = .ok itr ∧
      ∀ fuel, totalKeys twoLeafHeap [0, 1] ≤ fuel →
        drain twoLeafHeap fuel itf = some (fwd, ⟨none, 0, ⟨false⟩⟩) ∧
        drain twoLeafHeap fuel itr = some (fwd.reverse, ⟨none, 0, ⟨true⟩⟩) :=
  ⟨twoLeaf_forwardChain, twoLeaf_backwardChain,
    reverse_iteration_is_reversed twoLeafHeap twoLeafTree [0, 1] twoLeaf_forwardChain
      twoLeaf_backwardChain⟩

/-- C3, as stated, fails: a reverse iterator whose index lies beyond the
slots of its leaf has `HasNext` true, yet `Next` panics on the slice index. -/
theorem next_fails_iff_not_hasNext_counterexample :
    Iterator.HasNext twoLeafHeap ⟨some 0, 2, ⟨true⟩⟩ = true ∧
    Iterator.Next twoLeafHeap ⟨some 0, 2, ⟨true⟩⟩ = .error .indexOutOfRange ∧
    ¬ ((∃ p, Iterator.Next twoLeafHeap ⟨some 0, 2, ⟨true⟩⟩ = .error p) ↔
        Iterator.HasNext twoLeafHeap ⟨some 0, 2, ⟨true⟩⟩ = false) := by
  refine ⟨by decide, by decide, ?_⟩
  intro hiff
  have := hiff.mp ⟨.indexOutOfRange, by decide⟩
  exact absurd this (by decide)

/-- C3, amended: for every iterator state whose cursor slot can be read
whenever `HasNext` is true (the index is within `keys` and `pointers` and the
pointer there is a value), `Next` panics if and only if `HasNext` is false,
and then with the exhausted-iterator panic; when `HasNext` is true, `Next`
returns the key `keys[i]` and the value `pointers[i].asValue()` of the cursor
as it was before the call. -/
theorem next_fails_iff_not_hasNext (h : Heap) (it : Iterator)
    (hread : it.HasNext h = true → ∃ a k v, it.next = some a ∧
      index (h a).keys it.i = .ok k ∧ index (h a).pointers it.i = .ok (.value v)) :
    ((∃ p, it.Next h = .error p) ↔ it.HasNext h = false) ∧
    (it.HasNext h = false → it.Next h = .error .noNextNode) ∧
    (it.HasNext h = true → ∃ a k p v it', it.next = some a ∧
      index (h a).keys it.i = .ok k ∧ index (h a).pointers it.i = .ok p ∧
      p.asValue = .ok v ∧ it.Next h = .ok (k, v, it')) := by
  have hok : it.HasNext h = true → ∃ a k p v it', it.next = some a ∧
      index (h a).keys it.i = .ok k ∧ index (h a).pointers it.i = .ok p ∧
      p.asValue = .ok v ∧ it.Next h = .ok (k, v, it') := by
    intro hhas
    obtain ⟨a, k, v, hnode, hk, hv⟩ := hread hhas
    cases hrev : it.options.reverse with
    | false =>
      exact ⟨a, k, .value v, v, forwardStep h a it, hnode, hk, hv, rfl,
        (next_forward_ok_iff h it a hrev hnode hhas k v _).mpr ⟨hk, hv, rfl⟩⟩
    | true =>
      exact ⟨a, k, .value v, v, reverseStep h a it, hnode, hk, hv, rfl,
        (next_reverse_ok_iff h it a hrev hnode hhas k v _).mpr ⟨hk, hv, rfl⟩⟩
  refine ⟨⟨?_, ?_⟩, next_error_of_not_hasNext h it, hok⟩
  · rintro ⟨p, hp⟩
    cases hhas : it.HasNext h with
    | false => rfl
    | true =>
      obtain ⟨a, k, p', v, it', _, _, _, _, hN⟩ := hok hhas
      rw [hN] at hp
      cases hp
  · intro hn
    exact ⟨_, next_error_of_not_hasNext h it hn⟩

/-- Witness of C3 (amended): the reverse iterator at the last slot of the
two-leaf chain; its slot is readable and `Next` returns key `[3]`, value `[30]`. -/
theorem next_fails_iff_not_hasNext_witness :
    (Iterator.HasNext twoLeafHeap ⟨some 1, 0, ⟨true⟩⟩ = true → ∃ a k v,
      (⟨some 1, 0, ⟨true⟩⟩ : Iterator).next = some a ∧
      index (twoLeafHeap a).keys (⟨some 1, 0, ⟨true⟩⟩ : Iterator).i = .ok k ∧
      index (twoLeafHeap a).pointers (⟨some 1, 0, ⟨true⟩⟩ : Iterator).i = .ok (.value v)) ∧
    Iterator.HasNext twoLeafHeap ⟨some 1, 0, ⟨true⟩⟩ = true ∧
    ((∃ p, Iterator.Next twoLeafHeap ⟨some 1, 0, ⟨true⟩⟩ = .error p) ↔
        Iterator.HasNext twoLeafHeap ⟨some 1, 0, ⟨true⟩⟩ = false) ∧
    (Iterator.HasNext twoLeafHeap ⟨some 1, 0, ⟨true⟩⟩ = false →
      Iterator.Next twoLeafHeap ⟨some 1, 0, ⟨true⟩⟩ = .error .noNextNode) ∧
    (Iterator.HasNext twoLeafHeap ⟨some 1, 0, ⟨true⟩⟩ = true → ∃ a k p v it',
      (⟨some 1, 0, ⟨true⟩⟩ : Iterator).next = some a ∧
      index (twoLeafHeap a).keys (⟨some 1, 0, ⟨true⟩⟩ : Iterator).i = .ok k ∧
      index (twoLeafHeap a).pointers (⟨some 1, 0, ⟨true⟩⟩ : Iterator).i = .ok p ∧
      p.asValue = .ok v ∧ Iterator.Next twoLeafHeap ⟨some 1, 0, ⟨true⟩⟩ = .ok (k, v, it')) :=
  ⟨fun _ => ⟨1, [3], [30], rfl, by decide, by decide⟩, by decide,
    next_fails_iff_not_hasNext twoLeafHeap ⟨some 1, 0, ⟨true⟩⟩
      (fun _ => ⟨1, [3], [30], rfl, by decide, by decide⟩)⟩

theorem oneKey_forwardChain : ForwardChain oneKeyHeap oneKeyTree [0] :=
  ⟨by decide, ⟨rfl, rfl⟩, by decide⟩

theorem oneKey_backwardChain : BackwardChain oneKeyHeap oneKeyTree [0] :=
  ⟨by decide, ⟨rfl, rfl⟩, by decide⟩

/-- C4: over a leaf chain that is well formed in both directions and holds
`n ≥ 1` keys in total, in either direction, starting from the iterator that
`Iterator` builds, every sequence of at most `n` calls to `Next` succeeds and
the call after the `n`-th panics with the exhausted-iterator panic. -/
theorem next_succeeds_exactly_n_times (h : Heap) (t : BPTree) (ls : List Addr)
    (hf : ForwardChain h t ls) (hb : BackwardChain h t ls) (reverse : Bool) :
    1 ≤ totalKeys h ls ∧
    ∃ it, t.Iterator h (some ⟨reverse⟩) = .ok it ∧
      (∀ m, m ≤ totalKeys h ls → ∃ it', callNext h m it = .ok it') ∧
      callNext h (totalKeys h ls + 1) it = .error .noNextNode := by
  have hlen := chainPairs_length h ls hf.2.2
  constructor
  · obtain ⟨hne, _, hok⟩ := hf
    cases ls with
    | nil => exact absurd rfl hne
    | cons a rest =>
      have h1 := (hok a (by simp)).1
      simp only [totalKeys, List.map_cons, List.sum_cons]
      omega
  · cases reverse with
    | false =>
      refine ⟨_, forward_start h t ⟨false⟩ rfl, ?_⟩
      have hd := drain_forward h t ls hf _ (le_refl _)
      obtain ⟨_, _, h3, h4⟩ := callNext_of_drain h _ _ _ _ hd
      rw [hlen] at h3 h4
      exact ⟨h3, h4⟩
    | true =>
      obtain ⟨r, hr⟩ := hb.rightmost
      refine ⟨_, reverse_start h t ⟨true⟩ rfl r hr, ?_⟩
      have hd := drain_reverse h t ls hb _ (le_refl _)
      rw [hr] at hd
      obtain ⟨_, _, h3, h4⟩ := callNext_of_drain h _ _ _ _ hd
      rw [List.length_reverse, hlen] at h3 h4
      exact ⟨h3, h4⟩

/-- Witness of C4: on the one-key tree a reverse iterator's first `Next`
succeeds and its second `Next` panics. -/
theorem next_succeeds_exactly_n_times_witness :
    ForwardChain oneKeyHeap oneKeyTree [0] ∧ BackwardChain oneKeyHeap oneKeyTree [0] ∧
    totalKeys oneKeyHeap [0] = 1 ∧
    1 ≤ totalKeys oneKeyHeap [0] ∧
    ∃ it, oneKeyTree.Iterator oneKeyHeap (some ⟨true⟩) = .ok it ∧
      (∀ m, m ≤ totalKeys oneKeyHeap [0] → ∃ it', callNext oneKeyHeap m it = .ok it') ∧
      callNext oneKeyHeap (totalKeys oneKeyHeap [0] + 1) it = .error .noNextNode :=
  ⟨oneKey_forwardChain, oneKey_backwardChain, by decide,
    next_succeeds_exactly_n_times oneKeyHeap oneKeyTree [0] oneKey_forwardChain
      oneKey_backwardChain true⟩

/-- C5: on an empty tree, whose first and last leaf are one leaf with
`keyNum = 0`, the forward and the reverse iterator both have `HasNext` false
right after construction, and `Next` panics. -/
theorem empty_tree_has_no_next (h : Heap) (t : BPTree) (a : Addr)
    (hl : t.leftmost = some a) (hr : t.rightmost = some a) (hk : (h a).keyNum = 0)
    (reverse : Bool) :
    ∃ it, t.Iterator h (some ⟨reverse⟩) = .ok it ∧ it.HasNext h = false ∧
      it.Next h = .error .noNextNode := by
  cases reverse with
  | false =>
    refine ⟨_, forward_start h t ⟨false⟩ rfl, ?_⟩
    have hn : Iterator.HasNext h ⟨t.leftmost, 0, ⟨false⟩⟩ = false := by
      simp [Iterator.HasNext, hl, hk]
    exact ⟨hn, next_error_of_not_hasNext h _ hn⟩
  | true =>
    refine ⟨_, reverse_start h t ⟨true⟩ rfl a hr, ?_⟩
    have hn : Iterator.HasNext h ⟨some a, (h a).keyNum - 1, ⟨true⟩⟩ = false := by
      rw [hk]
      simp only [Iterator.HasNext, if_true, decide_eq_false_iff_not, not_le]
      decide
    exact ⟨hn, next_error_of_not_hasNext h _ hn⟩

/-- Witness of C5: the reverse iterator over the empty tree. -/
theorem empty_tree_has_no_next_witness :
    emptyTree.leftmost = some 0 ∧ emptyTree.rightmost = some 0 ∧ (emptyHeap 0).keyNum = 0 ∧
    ∃ it, emptyTree.Iterator emptyHeap (some ⟨true⟩) = .ok it ∧
      it.HasNext emptyHeap = false ∧ it.Next emptyHeap = .error .noNextNode :=
  ⟨rfl, rfl, rfl, empty_tree_has_no_next emptyHeap emptyTree 0 rfl rfl rfl true⟩

/-- C7: for every iterator state, `HasNext` is true for a forward iterator if
and only if the current node is non-nil and the index is below the node's
`keyNum`, and for a reverse iterator if and only if the current node is
non-nil and the index is at least zero. -/
theorem hasNext_iff (h : Heap) (node : Option Addr) (i : GoInt) :
    (Iterator.HasNext h ⟨node, i, ⟨false⟩⟩ = true ↔
      ∃ a, node = some a ∧ i.val < (h a).keyNum.val) ∧
    (Iterator.HasNext h ⟨node, i, ⟨true⟩⟩ = true ↔ node ≠ none ∧ 0 ≤ i.val) :=
  ⟨hasNext_forward h node i ⟨false⟩ rfl, hasNext_reverse h node i ⟨true⟩ rfl⟩

/-- C8: `Iterator(options)` with `reverse = false` returns the iterator with
cursor `(leftmost, 0)`, and with `reverse = true` the iterator with cursor
`(rightmost, rightmost.keyNum - 1)`, the subtraction being the one of Go's
`int` (the mathematical `keyNum - 1` unless `keyNum` is the least `int`); in
both cases the iterator carries the given options. -/
theorem iterator_start (h : Heap) (t : BPTree) (o : IteratorOptions) :
    (o.reverse = false → t.Iterator h (some o) = .ok ⟨t.leftmost, 0, o⟩) ∧
    (o.reverse = true → ∀ r, t.rightmost = some r →
      t.Iterator h (some o) = .ok ⟨some r, (h r).keyNum - 1, o⟩ ∧
      (-9223372036854775808 < (h r).keyNum.val →
        ((h r).keyNum - 1).val = (h r).keyNum.val - 1)) :=
  ⟨forward_start h t o, fun ho r hr =>
    ⟨reverse_start h t o ho r hr, GoInt.val_pred (h r).keyNum⟩⟩

/-- Witness of C8: the reverse iterator over the two-leaf chain starts at
`(1, 0)`. -/
theorem iterator_start_witness :
    twoLeafTree.rightmost = some 1 ∧
    twoLeafTree.Iterator twoLeafHeap (some ⟨true⟩) = .ok ⟨some 1, 0, ⟨true⟩⟩ :=
  ⟨rfl, ((iterator_start twoLeafHeap twoLeafTree ⟨true⟩).2 rfl 1 rfl).1⟩

/-- C9: for a forward iterator at `(a, i)` with `HasNext` true, `Next` returns
`(k, v)` and leaves the iterator `it'` exactly when `k` and `v` are the key
and value read at the cursor and `it'` is: `(a, i+1)` if `i+1 < keyNum`;
`(b, 0)` if `i+1 = keyNum` and `next(false)` is the following leaf `b`; the
exhausted state with a nil node if `i+1 = keyNum` and `next(false)` is nil. -/
theorem next_forward_cursor (h : Heap) (it : Iterator) (a : Addr)
    (hrev : it.options.reverse = false) (hnode : it.next = some a)
    (hhas : it.HasNext h = true) (k v : Bytes) (it' : Iterator) :
    it.Next h = .ok (k, v, it') ↔
      index (h a).keys it.i = .ok k ∧ index (h a).pointers it.i = .ok (.value v) ∧
      ((it.i.val + 1 < (h a).keyNum.val ∧ (it.i + 1).val = it.i.val + 1 ∧
          it' = ⟨some a, it.i + 1, it.options⟩) ∨
        (it.i.val + 1 = (h a).keyNum.val ∧
          ∃ b, (h a).next false = some (.child b) ∧ it' = ⟨some b, 0, it.options⟩) ∨
        (it.i.val + 1 = (h a).keyNum.val ∧ (h a).next false = none ∧
          it' = ⟨none, 0, it.options⟩)) := by
  have hlt : it.i.val < (h a).keyNum.val := by
    simpa [Iterator.HasNext, hrev, hnode] using hhas
  have hkn := (h a).keyNum.hi
  have hval : (it.i + 1).val = it.i.val + 1 := GoInt.val_succ it.i (by omega)
  rw [next_forward_ok_iff h it a hrev hnode hhas k v it']
  refine and_congr_right fun _ => and_congr_right fun _ => ?_
  unfold forwardStep Node.next
  by_cases hi : it.i + 1 = (h a).keyNum
  · have hv2 : it.i.val + 1 = (h a).keyNum.val := by rw [← hval, hi]
    simp only [hi, if_true, Bool.false_eq_true, if_false]
    cases hn : (h a).nextLeaf with
    | none => simp [hv2]
    | some b => simp [hv2]
  · have hv2 : it.i.val + 1 ≠ (h a).keyNum.val := by
      intro hc
      exact hi (GoInt.ext_val (by rw [hval, hc]))
    have hv3 : it.i.val + 1 < (h a).keyNum.val := by omega
    simp [hi, hv2, hv3, hval]

/-- Witness of C9: forward `Next` at the last slot of the first leaf of the
two-leaf chain moves to the following leaf. -/
theorem next_forward_cursor_witness :
    (⟨some 0, 1, ⟨false⟩⟩ : Iterator).options.reverse = false ∧
    (⟨some 0, 1, ⟨false⟩⟩ : Iterator).next = some 0 ∧
    Iterator.HasNext twoLeafHeap ⟨some 0, 1, ⟨false⟩⟩ = true ∧
    Iterator.Next twoLeafHeap ⟨some 0, 1, ⟨false⟩⟩ = .ok ([2], [20], ⟨some 1, 0, ⟨false⟩⟩) :=
  ⟨rfl, rfl, by decide,
    (next_forward_cursor twoLeafHeap ⟨some 0, 1, ⟨false⟩⟩ 0 rfl rfl (by decide) [2] [20]
      ⟨some 1, 0, ⟨false⟩⟩).mpr
      ⟨by decide, by decide, Or.inr (Or.inl ⟨by decide, 1, by decide, rfl⟩)⟩⟩

/-- C10: for a reverse iterator at `(a, i)` with `HasNext` true, `Next`
returns `(k, v)` and leaves the iterator `it'` exactly when `k` and `v` are
the key and value read at the cursor and `it'` is: `(a, i-1)` if `i-1 ≥ 0`;
`(b, b.keyNum - 1)` if `i-1 = -1` and `next(true)` is the preceding leaf `b`;
the exhausted state with a nil node if `i-1 = -1` and `next(true)` is nil. -/
theorem next_reverse_cursor (h : Heap) (it : Iterator) (a : Addr)
    (hrev : it.options.reverse = true) (hnode : it.next = some a)
    (hhas : it.HasNext h = true) (k v : Bytes) (it' : Iterator) :
    it.Next h = .ok (k, v, it') ↔
      index (h a).keys it.i = .ok k ∧ index (h a).pointers it.i = .ok (.value v) ∧
      ((0 ≤ it.i.val - 1 ∧ (it.i - 1).val = it.i.val - 1 ∧
          it' = ⟨some a, it.i - 1, it.options⟩) ∨
        (it.i.val - 1 = -1 ∧
          ∃ b, (h a).next true = some (.child b) ∧
            it' = ⟨some b, (h b).keyNum - 1, it.options⟩) ∨
        (it.i.val - 1 = -1 ∧ (h a).next true = none ∧ it' = ⟨none, 0, it.options⟩)) := by
  have hge : 0 ≤ it.i.val := by
    simpa [Iterator.HasNext, hrev, hnode] using hhas
  have hval : (it.i - 1).val = it.i.val - 1 := GoInt.val_pred it.i (by omega)
  rw [next_reverse_ok_iff h it a hrev hnode hhas k v it']
  refine and_congr_right fun _ => and_congr_right fun _ => ?_
  unfold reverseStep Node.next
  by_cases hi : it.i - 1 = -1
  · have hv2 : it.i.val - 1 = -1 := by rw [← hval, hi, GoInt.val_neg_one]
    have hv3 : ¬ (0 ≤ it.i.val - 1) := by omega
    simp only [hi, if_true]
    cases hn : (h a).prevLeaf with
    | none => simp [hv2]
    | some b => simp [hv2]
  · have hv2 : it.i.val - 1 ≠ -1 := by
      intro hc
      exact hi (GoInt.ext_val (by rw [hval, hc, GoInt.val_neg_one]))
    have hv3 : 0 ≤ it.i.val - 1 := by omega
    simp [hi, hv2, hv3, hval]

/-- Witness of C10: reverse `Next` at slot 0 of the last leaf of the two-leaf
chain moves to the last slot of the preceding leaf. -/
theorem next_reverse_cursor_witness :
    (⟨some 1, 0, ⟨true⟩⟩ : Iterator).options.reverse = true ∧
    (⟨some 1, 0, ⟨true⟩⟩ : Iterator).next = some 1 ∧
    Iterator.HasNext twoLeafHeap ⟨some 1, 0, ⟨true⟩⟩ = true ∧
    Iterator.Next twoLeafHeap ⟨some 1, 0, ⟨true⟩⟩ = .ok ([3], [30], ⟨some 0, 1, ⟨true⟩⟩) :=
  ⟨rfl, rfl, by decide,
    (next_reverse_cursor twoLeafHeap ⟨some 1, 0, ⟨true⟩⟩ 1 rfl rfl (by decide) [3] [30]
      ⟨some 0, 1, ⟨true⟩⟩).mpr
      ⟨by decide, by decide, Or.inr (Or.inl ⟨by decide, 0, by decide, by decide⟩)⟩⟩

/-! ## Reachable states -/

theorem hasNext_of_next_ok (h : Heap) (it : Iterator) (r : Bytes × Bytes × Iterator)
    (hN : it.Next h = .ok r) : it.HasNext h = true := by
  cases hh : it.HasNext h with
  | true => rfl
  | false => rw [next_error_of_not_hasNext h it hh] at hN; cases hN

theorem node_of_hasNext (h : Heap) (it : Iterator) (hh : it.HasNext h = true) :
    ∃ a, it.next = some a := by
  cases hn : it.next with
  | some a => exact ⟨a, rfl⟩
  | none => simp [Iterator.HasNext, hn] at hh

/-- A successful `Next` leaves one of the two step cursors. -/
theorem next_ok_step (h : Heap) (it : Iterator) (k v : Bytes) (it' : Iterator)
    (hN : it.Next h = .ok (k, v, it')) :
    ∃ a, it.next = some a ∧ index (h a).keys it.i = .ok k ∧
      index (h a).pointers it.i = .ok (.value v) ∧
      ((it.options.reverse = false ∧ it.i.val < (h a).keyNum.val ∧ it' = forwardStep h a it) ∨
        (it.options.reverse = true ∧ 0 ≤ it.i.val ∧ it' = reverseStep h a it)) := by
  have hh := hasNext_of_next_ok h it _ hN
  obtain ⟨a, ha⟩ := node_of_hasNext h it hh
  cases hrev : it.options.reverse with
  | false =>
    obtain ⟨hk, hv, hit⟩ := (next_forward_ok_iff h it a hrev ha hh k v it').mp hN
    have hlt : it.i.val < (h a).keyNum.val := by
      simpa [Iterator.HasNext, hrev, ha] using hh
    exact ⟨a, ha, hk, hv, Or.inl ⟨rfl, hlt, hit⟩⟩
  | true =>
    obtain ⟨hk, hv, hit⟩ := (next_reverse_ok_iff h it a hrev ha hh k v it').mp hN
    have hge : 0 ≤ it.i.val := by
      simpa [Iterator.HasNext, hrev, ha] using hh
    exact ⟨a, ha, hk, hv, Or.inr ⟨rfl, hge, hit⟩⟩

theorem forwardStep_options (h : Heap) (a : Addr) (it : Iterator) :
    (forwardStep h a it).options = it.options := by
  unfold forwardStep; split <;> rfl

theorem reverseStep_options (h : Heap) (a : Addr) (it : Iterator) :
    (reverseStep h a it).options = it.options := by
  unfold reverseStep
  split
  · split <;> rfl
  · rfl

theorem next_ok_options (h : Heap) (it : Iterator) (k v : Bytes) (it' : Iterator)
    (hN : it.Next h = .ok (k, v, it')) : it'.options = it.options := by
  obtain ⟨a, _, _, _, hc⟩ := next_ok_step h it k v it' hN
  rcases hc with ⟨_, _, rfl⟩ | ⟨_, _, rfl⟩
  · exact forwardStep_options h a it
  · exact reverseStep_options h a it

/-- Links of a chain stay inside the chain. -/
theorem Linked.closed {h : Heap} {link : Node → Option Addr} {ls : List Addr} :
    ∀ {p : Option Addr}, Linked h link p ls → ∀ a ∈ ls, ∀ b, link (h a) = some b → b ∈ ls := by
  induction ls with
  | nil => intro p _ a ha; cases ha
  | cons a' rest ih =>
    intro p hp a ha b hb
    obtain ⟨_, hl⟩ := hp
    rcases List.mem_cons.mp ha with rfl | hmem
    · cases rest with
      | nil => simp only [Linked] at hl; rw [hl] at hb; cases hb
      | cons c rest' =>
        have := hl.1
        rw [this] at hb
        cases hb
        simp
    · exact List.mem_cons_of_mem _ (ih hl a hmem b hb)

theorem positioned_next (h : Heap) (t : BPTree) (ls : List Addr)
    (hf : ForwardChain h t ls) (hb : BackwardChain h t ls) (it : Iterator)
    (k v : Bytes) (it' : Iterator) (hp : Positioned h ls it)
    (hN : it.Next h = .ok (k, v, it')) : Positioned h ls it' := by
  obtain ⟨a, ha, _, _, hc⟩ := next_ok_step h it k v it' hN
  rcases hp with hnone | ⟨a', hmem, ha', h0, hlt⟩
  · rw [hnone] at ha; cases ha
  · rw [ha] at ha'; cases ha'
    have hkn := (h a).keyNum.hi
    rcases hc with ⟨_, _, rfl⟩ | ⟨_, _, rfl⟩
    · unfold forwardStep
      have hval : (it.i + 1).val = it.i.val + 1 := GoInt.val_succ it.i (by omega)
      split
      · cases hn : (h a).nextLeaf with
        | none => exact Or.inl rfl
        | some b =>
          have hbm := hf.2.1.closed a hmem b hn
          have hb1 := (hf.2.2 b hbm).1
          exact Or.inr ⟨b, hbm, rfl, by rw [GoInt.val_zero], by rw [GoInt.val_zero]; omega⟩
      · rename_i hne
        have : it.i.val + 1 ≠ (h a).keyNum.val := by
          intro hc
          exact hne (GoInt.ext_val (by rw [hval, hc]))
        exact Or.inr ⟨a, hmem, rfl, by show 0 ≤ (it.i + 1).val; omega,
          by show (it.i + 1).val < _; omega⟩
    · unfold reverseStep
      have hval : (it.i - 1).val = it.i.val - 1 := GoInt.val_pred it.i (by omega)
      split
      · cases hn : (h a).prevLeaf with
        | none => exact Or.inl rfl
        | some b =>
          have hbm : b ∈ ls :=
            List.mem_reverse.mp (hb.2.1.closed a (List.mem_reverse.mpr hmem) b hn)
          have hb1 := (hb.2.2 b hbm).1
          have hv2 : ((h b).keyNum - 1).val = (h b).keyNum.val - 1 :=
            GoInt.val_pred _ (by omega)
          exact Or.inr ⟨b, hbm, rfl, by show 0 ≤ ((h b).keyNum - 1).val; omega,
            by show ((h b).keyNum - 1).val < _; omega⟩
      · rename_i hne
        have : it.i.val - 1 ≠ -1 := by
          intro hc
          exact hne (GoInt.ext_val (by rw [hval, hc, GoInt.val_neg_one]))
        exact Or.inr ⟨a, hmem, rfl, by show 0 ≤ (it.i - 1).val; omega,
          by show (it.i - 1).val < _; omega⟩

theorem positioned_callNext (h : Heap) (t : BPTree) (ls : List Addr)
    (hf : ForwardChain h t ls) (hb : BackwardChain h t ls) :
    ∀ (n : Nat) (it0 it : Iterator), Positioned h ls it0 → callNext h n it0 = .ok it →
      Positioned h ls it := by
  intro n
  induction n with
  | zero =>
    intro it0 it hp hc
    simp only [callNext, Except.ok.injEq] at hc
    rw [← hc]; exact hp
  | succ n ih =>
    intro it0 it hp hc
    cases hN : it0.Next h with
    | error e => simp [callNext, hN] at hc
    | ok r =>
      obtain ⟨k, v, it1⟩ := r
      simp only [callNext, hN] at hc
      exact ih it1 it (positioned_next h t ls hf hb it0 k v it1 hp hN) hc

theorem positioned_start (h : Heap) (t : BPTree) (ls : List Addr)
    (hf : ForwardChain h t ls) (hb : BackwardChain h t ls) (o : IteratorOptions)
    (it0 : Iterator) (h0 : t.Iterator h (some o) = .ok it0) : Positioned h ls it0 := by
  cases ho : o.reverse with
  | false =>
    rw [forward_start h t o ho] at h0
    cases h0
    obtain ⟨hne, hl, hok⟩ := hf
    cases ls with
    | nil => exact absurd rfl hne
    | cons a rest =>
      have h1 := (hok a (by simp)).1
      exact Or.inr ⟨a, by simp, hl.1, by rw [GoInt.val_zero], by rw [GoInt.val_zero]; omega⟩
  | true =>
    obtain ⟨r, hr⟩ := hb.rightmost
    rw [reverse_start h t o ho r hr] at h0
    cases h0
    obtain ⟨hne, hl, hok⟩ := hb
    have hrm : r ∈ ls := by
      cases hrev : ls.reverse with
      | nil => simp at hrev; exact absurd hrev hne
      | cons r' rest =>
        rw [hrev] at hl
        have := hl.1
        rw [hr] at this
        cases this
        exact List.mem_reverse.mp (by rw [hrev]; simp)
    have h1 := (hok r hrm).1
    have hv : ((h r).keyNum - 1).val = (h r).keyNum.val - 1 := GoInt.val_pred _ (by omega)
    exact Or.inr ⟨r, hrm, rfl, by show 0 ≤ ((h r).keyNum - 1).val; omega,
      by show ((h r).keyNum - 1).val < _; omega⟩

theorem positioned_of_reachable (h : Heap) (t : BPTree) (ls : List Addr)
    (hf : ForwardChain h t ls) (hb : BackwardChain h t ls) (o : IteratorOptions)
    (it : Iterator) (hr : Reachable h t o it) : Positioned h ls it := by
  obtain ⟨it0, n, h0, hc⟩ := hr
  exact positioned_callNext h t ls hf hb n it0 it (positioned_start h t ls hf hb o it0 h0) hc

theorem hasNext_of_positioned (h : Heap) (it : Iterator) (a : Addr)
    (ha : it.next = some a) (h0 : 0 ≤ it.i.val) (hlt : it.i.val < (h a).keyNum.val) :
    it.HasNext h = true := by
  cases hrev : it.options.reverse <;> simp [Iterator.HasNext, hrev, ha, h0, hlt]

/-! ## Call sequences -/

theorem Machine.call_of_not_hasNext (m : Machine) (hn : m.it.HasNext m.heap = false)
    (c : Call) : m.call c = m := by
  cases c with
  | hasNext => rfl
  | next => simp [Machine.call, next_error_of_not_hasNext m.heap m.it hn]

theorem Machine.run_of_not_hasNext (m : Machine) (hn : m.it.HasNext m.heap = false)
    (calls : List Call) : m.run calls = m := by
  induction calls with
  | nil => rfl
  | cons c cs ih =>
    simp only [Machine.run, List.foldl_cons, Machine.call_of_not_hasNext m hn c]
    exact ih

theorem Machine.call_frame (m : Machine) (c : Call) :
    (m.call c).heap = m.heap ∧ (m.call c).it.options = m.it.options := by
  cases c with
  | hasNext => exact ⟨rfl, rfl⟩
  | next =>
    cases hN : m.it.Next m.heap with
    | error e => simp [Machine.call, hN]
    | ok r =>
      obtain ⟨k, v, it'⟩ := r
      simp only [Machine.call, hN, true_and]
      exact next_ok_options m.heap m.it k v it' hN

theorem Machine.run_frame (calls : List Call) : ∀ (m : Machine),
    (m.run calls).heap = m.heap ∧ (m.run calls).it.options = m.it.options := by
  induction calls with
  | nil => intro m; exact ⟨rfl, rfl⟩
  | cons c cs ih =>
    intro m
    have h1 := Machine.call_frame m c
    have h2 := ih (m.call c)
    simp only [Machine.run, List.foldl_cons] at h2 ⊢
    exact ⟨h2.1.trans h1.1, h2.2.trans h1.2⟩

/-- A panic of `Next` is raised before the first assignment: either by the
`HasNext` test or by a read of the cursor slot. -/
theorem next_error_before_assignment (h : Heap) (it : Iterator) (p : Panic)
    (hN : it.Next h = .error p) :
    it.HasNext h = false ∨
      ∀ a, it.next = some a → ¬ ∃ k v, index (h a).keys it.i = .ok k ∧
        index (h a).pointers it.i = .ok (.value v) := by
  cases hh : it.HasNext h with
  | false => exact Or.inl rfl
  | true =>
    right
    rintro a ha ⟨k, v, hk, hv⟩
    cases hrev : it.options.reverse with
    | false =>
      have := (next_forward_ok_iff h it a hrev ha hh k v _).mpr ⟨hk, hv, rfl⟩
      rw [this] at hN; cases hN
    | true =>
      have := (next_reverse_ok_iff h it a hrev ha hh k v _).mpr ⟨hk, hv, rfl⟩
      rw [this] at hN; cases hN

/-! ## Claims on states and call sequences -/

/-- C11: the exhausted state is terminal. Once `HasNext` is false, `Next`
panics, the panic leaves the cursor `(node, index)` unchanged, and after any
further sequence of `HasNext` and `Next` calls the iterator is the same and
`HasNext` is still false. -/
theorem exhausted_is_terminal (m : Machine) (hn : m.it.HasNext m.heap = false) :
    m.it.Next m.heap = .error .noNextNode ∧
    (m.call Call.next).it = m.it ∧
    ∀ calls : List Call, (m.run calls).it = m.it ∧
      (m.run calls).it.HasNext (m.run calls).heap = false := by
  refine ⟨next_error_of_not_hasNext m.heap m.it hn, ?_, ?_⟩
  · rw [Machine.call_of_not_hasNext m hn]
  · intro calls
    rw [Machine.run_of_not_hasNext m hn calls]
    exact ⟨rfl, hn⟩

/-- Witness of C11: the iterator drained over the two-leaf chain. -/
theorem exhausted_is_terminal_witness :
    Iterator.HasNext twoLeafHeap ⟨none, 0, ⟨false⟩⟩ = false ∧
    Iterator.Next twoLeafHeap ⟨none, 0, ⟨false⟩⟩ = .error .noNextNode ∧
    ((⟨twoLeafHeap, ⟨none, 0, ⟨false⟩⟩⟩ : Machine).call Call.next).it = ⟨none, 0, ⟨false⟩⟩ ∧
    ∀ calls : List Call,
      ((⟨twoLeafHeap, ⟨none, 0, ⟨false⟩⟩⟩ : Machine).run calls).it = ⟨none, 0, ⟨false⟩⟩ ∧
      ((⟨twoLeafHeap, ⟨none, 0, ⟨false⟩⟩⟩ : Machine).run calls).it.HasNext
        ((⟨twoLeafHeap, ⟨none, 0, ⟨false⟩⟩⟩ : Machine).run calls).heap = false :=
  ⟨by decide, exhausted_is_terminal ⟨twoLeafHeap, ⟨none, 0, ⟨false⟩⟩⟩ (by decide)⟩

/-- C12, as stated, fails on the empty tree: the state right after
construction is reachable, its node is the non-nil empty leaf, and `HasNext`
is false. -/
theorem reachable_state_shape_counterexample :
    IsEmptyTree emptyHeap emptyTree ∧
    Reachable emptyHeap emptyTree ⟨false⟩ ⟨some 0, 0, ⟨false⟩⟩ ∧
    Iterator.HasNext emptyHeap ⟨some 0, 0, ⟨false⟩⟩ = false ∧
    (⟨some 0, 0, ⟨false⟩⟩ : Iterator).next ≠ none ∧
    ¬ (Iterator.HasNext emptyHeap ⟨some 0, 0, ⟨false⟩⟩ = false ↔
        (⟨some 0, 0, ⟨false⟩⟩ : Iterator).next = none) := by
  refine ⟨⟨0, rfl, rfl, rfl⟩, ⟨⟨some 0, 0, ⟨false⟩⟩, 0, rfl, rfl⟩, by decide, by decide, ?_⟩
  intro hiff
  exact absurd (hiff.mp (by decide)) (by decide)

/-- C12, amended: over a well-formed non-empty tree (a chain of non-empty
leaves), every iterator state reachable from construction by calls to `Next`
is either positioned at a leaf of the chain with `0 ≤ index < keyNum`, or
exhausted with a nil node; in every such state `HasNext` is false if and only
if the node is nil. -/
theorem reachable_state_shape (h : Heap) (t : BPTree) (ls : List Addr)
    (hf : ForwardChain h t ls) (hb : BackwardChain h t ls) (o : IteratorOptions)
    (it : Iterator) (hr : Reachable h t o it) :
    ((∃ a ∈ ls, it.next = some a ∧ 0 ≤ it.i.val ∧ it.i.val < (h a).keyNum.val) ∨
      it.next = none) ∧
    (it.HasNext h = false ↔ it.next = none) := by
  rcases positioned_of_reachable h t ls hf hb o it hr with hnone | ⟨a, hmem, ha, h0, hlt⟩
  · refine ⟨Or.inr hnone, fun _ => hnone, fun _ => ?_⟩
    cases hrev : it.options.reverse <;> simp [Iterator.HasNext, hrev, hnone]
  · have hh := hasNext_of_positioned h it a ha h0 hlt
    refine ⟨Or.inl ⟨a, hmem, ha, h0, hlt⟩, fun hc => ?_, fun hc => ?_⟩
    · rw [hh] at hc; cases hc
    · rw [ha] at hc; cases hc

/-- Witness of C12 (amended): the reverse iterator over the two-leaf chain
after one call to `Next`. -/
theorem reachable_state_shape_witness :
    ForwardChain twoLeafHeap twoLeafTree [0, 1] ∧ BackwardChain twoLeafHeap twoLeafTree [0, 1] ∧
    Reachable twoLeafHeap twoLeafTree ⟨true⟩ ⟨some 0, 1, ⟨true⟩⟩ ∧
    ((∃ a ∈ [0, 1], (⟨some 0, 1, ⟨true⟩⟩ : Iterator).next = some a ∧
        0 ≤ (⟨some 0, 1, ⟨true⟩⟩ : Iterator).i.val ∧
        (⟨some 0, 1, ⟨true⟩⟩ : Iterator).i.val < (twoLeafHeap a).keyNum.val) ∨
      (⟨some 0, 1, ⟨true⟩⟩ : Iterator).next = none) ∧
    (Iterator.HasNext twoLeafHeap ⟨some 0, 1, ⟨true⟩⟩ = false ↔
      (⟨some 0, 1, ⟨true⟩⟩ : Iterator).next = none) :=
  ⟨twoLeaf_forwardChain, twoLeaf_backwardChain, ⟨⟨some 1, 0, ⟨true⟩⟩, 1, by decide, by decide⟩,
    reachable_state_shape twoLeafHeap twoLeafTree [0, 1] twoLeaf_forwardChain
      twoLeaf_backwardChain ⟨true⟩ ⟨some 0, 1, ⟨true⟩⟩
      ⟨⟨some 1, 0, ⟨true⟩⟩, 1, by decide, by decide⟩⟩

/-- C13: the direction of an iterator is fixed for its life. Over any sequence
of `HasNext` and `Next` calls the iterator keeps its options, and the heap,
that is every leaf's keys, pointers, `keyNum` and sibling links, is left
unchanged: `Next` modifies only the cursor fields. -/
theorem calls_keep_options_and_heap (m : Machine) (calls : List Call) :
    (m.run calls).it.options = m.it.options ∧ (m.run calls).heap = m.heap ∧
    ∀ a, (m.run calls).heap a = m.heap a :=
  ⟨(Machine.run_frame calls m).2, (Machine.run_frame calls m).1,
    fun a => congrFun (Machine.run_frame calls m).1 a⟩

theorem twoLeaf_chainSorted : ChainSorted twoLeafHeap [0, 1] := by
  have h0 : (twoLeafHeap 0).pairKeys = [[1], [2]] := by decide
  have h1 : (twoLeafHeap 1).pairKeys = [[3]] := by decide
  refine ⟨?_, ?_⟩
  · intro a ha
    simp only [List.mem_cons, List.mem_singleton, List.not_mem_nil, or_false] at ha
    rcases ha with rfl | rfl
    · rw [h0, List.chain'_pair]; decide
    · rw [h1]; exact List.chain'_singleton _
  · rw [List.chain'_pair, h0, h1]
    intro x hx y hy
    simp only [List.getLast?_cons_cons, List.getLast?_singleton, Option.mem_def,
      Option.some.injEq, List.head?_cons] at hx hy
    subst hx hy
    decide

/-- C15, as stated, fails: with `reverse = true` the iterator over the sorted
two-leaf chain yields the keys `[3]`, `[2]`, `[1]`, which is not ascending
order. -/
theorem iterator_ascending_counterexample :
    twoLeafTree.Iterator twoLeafHeap (some ⟨true⟩) = .ok ⟨some 1, 0, ⟨true⟩⟩ ∧
    (drain twoLeafHeap 3 ⟨some 1, 0, ⟨true⟩⟩).map (fun r => r.1.map Prod.fst) =
      some [[3], [2], [1]] ∧
    ¬ List.Pairwise (fun x y => bytesLt x y = true) [[3], [2], [1]] := by
  refine ⟨by decide, by decide, by decide⟩

/-- C15, amended: over a well-formed chain with sorted keys, for every
`IteratorOptions` value, `Iterator` returns an iterator whose drain, for every
fuel of at least the number of keys, traverses the whole tree: with
`reverse = false` it yields exactly the pairs of the chain, leaf after leaf,
whose keys are in strictly ascending order; with `reverse = true` it yields
exactly the same pairs reversed, whose keys are in strictly descending order.
The pairs of each leaf are its first `keyNum` keys and values, and there are
as many pairs as the tree holds keys. -/
theorem iterator_order (h : Heap) (t : BPTree) (ls : List Addr)
    (hf : ForwardChain h t ls) (hb : BackwardChain h t ls) (hs : ChainSorted h ls)
    (o : IteratorOptions) :
    ∃ it, t.Iterator h (some o) = .ok it ∧
      (∀ fuel, totalKeys h ls ≤ fuel →
        drain h fuel it =
          some (if o.reverse = true then (chainPairs h ls).reverse else chainPairs h ls,
            ⟨none, 0, o⟩)) ∧
      (∀ a ∈ ls, (h a).pairs.map Prod.fst = (h a).keys.take (h a).keyNum.val.toNat ∧
        (h a).pairs.map (fun kv => Pointer.value kv.2) =
          (h a).pointers.take (h a).keyNum.val.toNat) ∧
      (chainPairs h ls).length = totalKeys h ls ∧ 1 ≤ totalKeys h ls ∧
      List.Pairwise (fun x y => bytesLt x y = true) ((chainPairs h ls).map Prod.fst) ∧
      List.Pairwise (fun x y => bytesLt y x = true)
        ((chainPairs h ls).reverse.map Prod.fst) := by
  have hlen := chainPairs_length h ls hf.2.2
  have hasc := chain_keys_pairwise h ls hf.2.2 hs
  have hslots : ∀ a ∈ ls,
      (h a).pairs.map Prod.fst = (h a).keys.take (h a).keyNum.val.toNat ∧
      (h a).pairs.map (fun kv => Pointer.value kv.2) =
        (h a).pointers.take (h a).keyNum.val.toNat :=
    fun a ha => ⟨(hf.2.2 a ha).pairs_keys, (hf.2.2 a ha).pairs_values⟩
  have hpos : 1 ≤ totalKeys h ls := by
    obtain ⟨hne, _, hok⟩ := hf
    cases ls with
    | nil => exact absurd rfl hne
    | cons a rest =>
      have h1 := (hok a (by simp)).1
      simp only [totalKeys, List.map_cons, List.sum_cons]
      omega
  have hdesc : List.Pairwise (fun x y => bytesLt y x = true)
      ((chainPairs h ls).reverse.map Prod.fst) := by
    rw [List.map_reverse, List.pairwise_reverse]
    exact hasc
  obtain ⟨rev⟩ := o
  cases rev with
  | false =>
    refine ⟨_, forward_start h t ⟨false⟩ rfl, ?_, hslots, hlen, hpos, hasc, hdesc⟩
    intro fuel hfuel
    rw [if_neg (show ¬ ((⟨false⟩ : IteratorOptions).reverse = true) by decide)]
    exact drain_forward h t ls hf fuel (by rw [hlen]; exact hfuel)
  | true =>
    obtain ⟨r, hr⟩ := hb.rightmost
    refine ⟨_, reverse_start h t ⟨true⟩ rfl r hr, ?_, hslots, hlen, hpos, hasc, hdesc⟩
    intro fuel hfuel
    have hd := drain_reverse h t ls hb fuel (by rw [hlen]; exact hfuel)
    rw [hr] at hd
    rw [if_pos (show (⟨true⟩ : IteratorOptions).reverse = true from rfl)]
    exact hd

/-- Witness of C15 (amended): on the two-leaf chain `[1], [2] | [3]`, read in
reverse, the drain yields `[3]`, `[2]`, `[1]` with their values. -/
theorem iterator_order_witness :
    ForwardChain twoLeafHeap twoLeafTree [0, 1] ∧ BackwardChain twoLeafHeap twoLeafTree [0, 1] ∧
    ChainSorted twoLeafHeap [0, 1] ∧
    chainPairs twoLeafHeap [0, 1] = [([1], [10]), ([2], [20]), ([3], [30])] ∧
    (∃ it, twoLeafTree.Iterator twoLeafHeap (some ⟨true⟩) = .ok it ∧
      drain twoLeafHeap 3 it =
        some ([([3], [30]), ([2], [20]), ([1], [10])], ⟨none, 0, ⟨true⟩⟩)) ∧
    ∃ it, twoLeafTree.Iterator twoLeafHeap (some ⟨true⟩) = .ok it ∧
      (∀ fuel, totalKeys twoLeafHeap [0, 1] ≤ fuel →
        drain twoLeafHeap fuel it =
          some (if (⟨true⟩ : IteratorOptions).reverse = true then
              (chainPairs twoLeafHeap [0, 1]).reverse
            else chainPairs twoLeafHeap [0, 1],
            ⟨none, 0, ⟨true⟩⟩)) ∧
      (∀ a ∈ [0, 1],
        (twoLeafHeap a).pairs.map Prod.fst =
          (twoLeafHeap a).keys.take (twoLeafHeap a).keyNum.val.toNat ∧
        (twoLeafHeap a).pairs.map (fun kv => Pointer.value kv.2) =
          (twoLeafHeap a).pointers.take (twoLeafHeap a).keyNum.val.toNat) ∧
      (chainPairs twoLeafHeap [0, 1]).length = totalKeys twoLeafHeap [0, 1] ∧
      1 ≤ totalKeys twoLeafHeap [0, 1] ∧
      List.Pairwise (fun x y => bytesLt x y = true)
        ((chainPairs twoLeafHeap [0, 1]).map Prod.fst) ∧
      List.Pairwise (fun x y => bytesLt y x = true)
        ((chainPairs twoLeafHeap [0, 1]).reverse.map Prod.fst) :=
  ⟨twoLeaf_forwardChain, twoLeaf_backwardChain, twoLeaf_chainSorted, by decide,
    ⟨⟨some 1, 0, ⟨true⟩⟩, by decide, by decide⟩,
    iterator_order twoLeafHeap twoLeafTree [0, 1] twoLeaf_forwardChain twoLeaf_backwardChain
      twoLeaf_chainSorted ⟨true⟩⟩

theorem callNext_of_not_hasNext (h : Heap) (n : Nat) (it0 it : Iterator)
    (hn : it0.HasNext h = false) (hc : callNext h n it0 = .ok it) : it = it0 := by
  cases n with
  | zero => simp only [callNext, Except.ok.injEq] at hc; exact hc.symm
  | succ n => simp [callNext, next_error_of_not_hasNext h it0 hn] at hc

/-- C16: index safety. In every iterator state reachable from construction
over a well-formed tree (a chain of non-empty leaves, or the empty tree) in
which `HasNext` is true, in both directions, the node is a leaf of the chain,
the index satisfies `0 ≤ i < keyNum`, and the reads `keys[i]` and
`pointers[i]` of `Next` are in bounds and read a leaf value, so that `Next`
returns them. -/
theorem reachable_index_in_bounds (h : Heap) (t : BPTree) (ls : List Addr)
    (hw : WellFormed h t ls) (o : IteratorOptions) (it : Iterator)
    (hr : Reachable h t o it) (hh : it.HasNext h = true) :
    ∃ a k v it', it.next = some a ∧ 0 ≤ it.i.val ∧ it.i.val < (h a).keyNum.val ∧
      (h a).keyNum.val ≤ (h a).keys.length ∧ (h a).keyNum.val ≤ (h a).pointers.length ∧
      index (h a).keys it.i = .ok k ∧ index (h a).pointers it.i = .ok (.value v) ∧
      it.Next h = .ok (k, v, it') := by
  rcases hw with ⟨hf, hb⟩ | ⟨e, hl, hrm, hk⟩
  · rcases positioned_of_reachable h t ls hf hb o it hr with hnone | ⟨a, hmem, ha, h0, hlt⟩
    · cases hrev : it.options.reverse <;> simp [Iterator.HasNext, hrev, hnone] at hh
    · have hok := hf.2.2 a hmem
      obtain ⟨k, v, hk, hv, _⟩ := hok.read it.i h0 hlt
      have hN : ∃ it', it.Next h = .ok (k, v, it') := by
        cases hrev : it.options.reverse with
        | false => exact ⟨_, next_forward h it a k v hrev ha hlt hk hv⟩
        | true => exact ⟨_, next_reverse h it a k v hrev ha h0 hk hv⟩
      obtain ⟨it', hN⟩ := hN
      exact ⟨a, k, v, it', ha, h0, hlt, hok.2.1, hok.2.2.1, hk, hv, hN⟩
  · exfalso
    obtain ⟨it0, n, h0, hc⟩ := hr
    have hn0 : it0.HasNext h = false := by
      cases ho : o.reverse with
      | false =>
        rw [forward_start h t o ho] at h0
        cases h0
        simp [Iterator.HasNext, ho, hl, hk]
      | true =>
        rw [reverse_start h t o ho e hrm] at h0
        cases h0
        rw [hk]
        simp only [Iterator.HasNext, ho, if_true, decide_eq_false_iff_not, not_le]
        decide
    have := callNext_of_not_hasNext h n it0 it hn0 hc
    rw [this, hn0] at hh
    cases hh

/-- Witness of C16: the reverse iterator over the two-leaf chain after one
call to `Next` sits at slot 1 of the first leaf. -/
theorem reachable_index_in_bounds_witness :
    WellFormed twoLeafHeap twoLeafTree [0, 1] ∧
    Reachable twoLeafHeap twoLeafTree ⟨true⟩ ⟨some 0, 1, ⟨true⟩⟩ ∧
    Iterator.HasNext twoLeafHeap ⟨some 0, 1, ⟨true⟩⟩ = true ∧
    ∃ a k v it', (⟨some 0, 1, ⟨true⟩⟩ : Iterator).next = some a ∧
      0 ≤ (⟨some 0, 1, ⟨true⟩⟩ : Iterator).i.val ∧
      (⟨some 0, 1, ⟨true⟩⟩ : Iterator).i.val < (twoLeafHeap a).keyNum.val ∧
      (twoLeafHeap a).keyNum.val ≤ (twoLeafHeap a).keys.length ∧
      (twoLeafHeap a).keyNum.val ≤ (twoLeafHeap a).pointers.length ∧
      index (twoLeafHeap a).keys (⟨some 0, 1, ⟨true⟩⟩ : Iterator).i = .ok k ∧
      index (twoLeafHeap a).pointers (⟨some 0, 1, ⟨true⟩⟩ : Iterator).i = .ok (.value v) ∧
      Iterator.Next twoLeafHeap ⟨some 0, 1, ⟨true⟩⟩ = .ok (k, v, it') :=
  ⟨Or.inl ⟨twoLeaf_forwardChain, twoLeaf_backwardChain⟩,
    ⟨⟨some 1, 0, ⟨true⟩⟩, 1, by decide, by decide⟩, by decide,
    reachable_index_in_bounds twoLeafHeap twoLeafTree [0, 1]
      (Or.inl ⟨twoLeaf_forwardChain, twoLeaf_backwardChain⟩) ⟨true⟩ ⟨some 0, 1, ⟨true⟩⟩
      ⟨⟨some 1, 0, ⟨true⟩⟩, 1, by decide, by decide⟩ (by decide)⟩

/-- C17: the non-empty-leaf precondition is necessary. On the chain
`[1] | (empty) | [3]`, whose links are well formed in both directions, the
forward drain yields only `[1]` and stops at the empty leaf with `HasNext`
false and a non-nil node, never yielding `[3]`; the reverse drain yields only
`[3]` and stops at the empty leaf in the same way, never yielding `[1]`. -/
theorem empty_leaf_stops_iteration :
    Linked gapHeap Node.nextLeaf gapTree.leftmost [0, 1, 2] ∧
    Linked gapHeap Node.prevLeaf gapTree.rightmost [2, 1, 0] ∧
    (gapHeap 1).keyNum = 0 ∧ (gapHeap 0).pairs = [([1], [10])] ∧
    (gapHeap 2).pairs = [([3], [30])] ∧
    (∃ it, gapTree.Iterator gapHeap (some ⟨false⟩) = .ok it ∧
      ∀ fuel, 1 ≤ fuel →
        drain gapHeap fuel it = some ([([1], [10])], ⟨some 1, 0, ⟨false⟩⟩)) ∧
    Iterator.HasNext gapHeap ⟨some 1, 0, ⟨false⟩⟩ = false ∧
    (∃ it, gapTree.Iterator gapHeap (some ⟨true⟩) = .ok it ∧
      ∀ fuel, 1 ≤ fuel →
        drain gapHeap fuel it = some ([([3], [30])], ⟨some 1, -1, ⟨true⟩⟩)) ∧
    Iterator.HasNext gapHeap ⟨some 1, -1, ⟨true⟩⟩ = false := by
  refine ⟨⟨rfl, rfl, rfl, rfl⟩, ⟨rfl, rfl, rfl, rfl⟩, by decide, by decide, by decide,
    ⟨⟨some 0, 0, ⟨false⟩⟩, rfl, ?_⟩, by decide, ⟨⟨some 2, 0, ⟨true⟩⟩, by decide, ?_⟩, by decide⟩
  · intro fuel hfuel
    obtain ⟨f, rfl⟩ : ∃ f, fuel = f + 1 := ⟨fuel - 1, by omega⟩
    rw [drain_succ_of_next gapHeap f ⟨some 0, 0, ⟨false⟩⟩ ⟨some 1, 0, ⟨false⟩⟩ [1] [10]
      (by decide) (by decide), drain_of_not_hasNext gapHeap f _ (by decide)]
    rfl
  · intro fuel hfuel
    obtain ⟨f, rfl⟩ : ∃ f, fuel = f + 1 := ⟨fuel - 1, by omega⟩
    rw [drain_succ_of_next gapHeap f ⟨some 2, 0, ⟨true⟩⟩ ⟨some 1, -1, ⟨true⟩⟩ [3] [30]
      (by decide) (by decide), drain_of_not_hasNext gapHeap f _ (by decide)]
    rfl


/-! ## The byte order is a strict total order -/

theorem bytesLt_total : ∀ (x y : Bytes), bytesLt x y = true ∨ x = y ∨ bytesLt y x = true
  | [], [] => Or.inr (Or.inl rfl)
  | [], _ :: _ => Or.inl (by simp [bytesLt])
  | _ :: _, [] => Or.inr (Or.inr (by simp [bytesLt]))
  | a :: x, b :: y => by
    simp only [bytesLt, Bool.or_eq_true, Bool.and_eq_true, decide_eq_true_eq, List.cons.injEq]
    rcases Nat.lt_trichotomy a.toNat b.toNat with hab | hab | hab
    · exact Or.inl (Or.inl hab)
    · rcases bytesLt_total x y with h | h | h
      · exact Or.inl (Or.inr ⟨hab, h⟩)
      · exact Or.inr (Or.inl ⟨UInt8.toNat.inj hab, h⟩)
      · exact Or.inr (Or.inr (Or.inr ⟨hab.symm, h⟩))
    · exact Or.inr (Or.inr (Or.inl hab))

theorem bytesLt_asymm (x y : Bytes) (h : bytesLt x y = true) : bytesLt y x = false := by
  cases hyx : bytesLt y x with
  | false => rfl
  | true =>
    have := bytesLt_trans x y x h hyx
    rw [bytesLt_irrefl] at this
    cases this

theorem bytesLt_ne (x y : Bytes) (h : bytesLt x y = true) : x ≠ y := by
  rintro rfl
  rw [bytesLt_irrefl] at h
  cases h

/-- From `a < s` and `s ≤ k`: `a < k`. -/
theorem bytesLt_of_lt_of_le (a s k : Bytes) (has : bytesLt a s = true)
    (hks : bytesLt k s = false) : bytesLt a k = true := by
  rcases bytesLt_total a k with h | h | h
  · exact h
  · subst h; rw [has] at hks; cases hks
  · rw [bytesLt_trans k a s h has] at hks; cases hks

/-- From `k ≤ s` and `s < a`: `k < a`. -/
theorem bytesLt_of_le_of_lt (k s a : Bytes) (hsk : bytesLt s k = false)
    (hsa : bytesLt s a = true) : bytesLt k a = true := by
  rcases bytesLt_total k a with h | h | h
  · exact h
  · subst h; rw [hsa] at hsk; cases hsk
  · rw [bytesLt_trans s a k hsa h] at hsk; cases hsk

/-- From `k < s` and `s ≤ a`: `k < a`. -/
theorem bytesLt_of_lt_of_ge (k s a : Bytes) (hks : bytesLt k s = true)
    (has : bytesLt a s = false) : bytesLt k a = true := by
  rcases bytesLt_total k a with h | h | h
  · exact h
  · subst h; rw [hks] at has; cases has
  · rw [bytesLt_trans a k s h hks] at has; cases has

/-- From `l ≤ s` and `s ≤ a`: `l ≤ a`. -/
theorem bytesLe_trans (l s a : Bytes) (hsl : bytesLt s l = false)
    (has : bytesLt a s = false) : bytesLt a l = false := by
  cases hal : bytesLt a l with
  | false => rfl
  | true =>
    rcases bytesLt_total a s with h | h | h
    · rw [h] at has; cases has
    · subst h; rw [hal] at hsl; cases hsl
    · rw [bytesLt_trans s a l h hal] at hsl; cases hsl

/-! ## Puts into a leaf -/

theorem leafPut_cons_of_lt (key value k v : Bytes) (es : List Entry)
    (hlt : bytesLt k key = true) :
    leafPut key value ((k, v) :: es) = (k, v) :: leafPut key value es := by
  have hs : search key (((k, v) :: es).map Prod.fst) =
      search key (es.map Prod.fst) + 1 := by simp [search, hlt]
  unfold leafPut
  simp only [hs, List.getElem?_cons_succ]
  generalize search key (es.map Prod.fst) = i
  cases es[i]? with
  | none => simp [insertAt]
  | some p =>
    obtain ⟨k', v'⟩ := p
    by_cases hk : k' = key <;> simp [hk, insertAt]

theorem leafPut_eq_leafInsert (key value : Bytes) (es : List Entry) :
    leafPut key value es = leafInsert key value es := by
  induction es with
  | nil => simp [leafPut, leafInsert, search, insertAt]
  | cons e es ih =>
    obtain ⟨k, v⟩ := e
    by_cases hlt : bytesLt k key = true
    · rw [leafPut_cons_of_lt key value k v es hlt, ih]
      simp [leafInsert, hlt]
    · have hs : search key (((k, v) :: es).map Prod.fst) = 0 := by simp [search, hlt]
      unfold leafPut
      simp only [hs, List.getElem?_cons_zero, leafInsert, hlt]
      by_cases hk : k = key <;> simp [hk, insertAt]

theorem mem_leafInsert (key value : Bytes) (es : List Entry) (e : Entry)
    (he : e ∈ leafInsert key value es) : e = (key, value) ∨ e ∈ es := by
  induction es with
  | nil => simp [leafInsert] at he; exact Or.inl he
  | cons x es ih =>
    obtain ⟨k, v⟩ := x
    unfold leafInsert at he
    split at he
    · rcases List.mem_cons.mp he with h | h
      · exact Or.inr (by simp [h])
      · rcases ih h with h2 | h2
        · exact Or.inl h2
        · exact Or.inr (List.mem_cons_of_mem _ h2)
    · split at he
      · rcases List.mem_cons.mp he with h | h
        · exact Or.inl h
        · exact Or.inr (List.mem_cons_of_mem _ h)
      · rcases List.mem_cons.mp he with h | h
        · exact Or.inl h
        · exact Or.inr h

theorem leafInsert_ne_nil (key value : Bytes) (es : List Entry) :
    leafInsert key value es ≠ [] := by
  cases es with
  | nil => simp [leafInsert]
  | cons x es =>
    obtain ⟨k, v⟩ := x
    unfold leafInsert
    split
    · simp
    · split <;> simp

theorem leafInsert_length_le (key value : Bytes) (es : List Entry) :
    (leafInsert key value es).length ≤ es.length + 1 := by
  induction es with
  | nil => simp [leafInsert]
  | cons x es ih =>
    obtain ⟨k, v⟩ := x
    unfold leafInsert
    split
    · simp; omega
    · split <;> simp

theorem leafInsert_append_left (key value : Bytes) (A B : List Entry)
    (hA : ∀ e ∈ A, bytesLt e.1 key = true) :
    leafInsert key value (A ++ B) = A ++ leafInsert key value B := by
  induction A with
  | nil => rfl
  | cons x A ih =>
    obtain ⟨k, v⟩ := x
    have hk : bytesLt k key = true := hA (k, v) (by simp)
    have ih2 := ih (fun e he => hA e (List.mem_cons_of_mem _ he))
    rw [List.cons_append, List.cons_append]
    simp only [leafInsert, hk, if_true, ih2]

theorem leafInsert_append_right (key value : Bytes) (B C : List Entry)
    (hC : ∀ e ∈ C, bytesLt key e.1 = true) :
    leafInsert key value (B ++ C) = leafInsert key value B ++ C := by
  induction B with
  | nil =>
    cases C with
    | nil => rfl
    | cons x C =>
      obtain ⟨k, v⟩ := x
      have hk : bytesLt key k = true := hC (k, v) (by simp)
      have h1 : bytesLt k key = false := bytesLt_asymm key k hk
      have h2 : k ≠ key := (bytesLt_ne key k hk).symm
      simp [leafInsert, h1, h2]
  | cons x B ih =>
    obtain ⟨k, v⟩ := x
    rw [List.cons_append]
    by_cases h1 : bytesLt k key = true
    · simp only [leafInsert, h1, if_true, ih, List.cons_append]
    · by_cases h2 : k = key
      · subst h2; simp [leafInsert, bytesLt_irrefl]
      · simp [leafInsert, h1, h2]

theorem leafInsert_pairwise (key value : Bytes) (es : List Entry)
    (hp : List.Pairwise (fun a b : Entry => bytesLt a.1 b.1 = true) es) :
    List.Pairwise (fun a b : Entry => bytesLt a.1 b.1 = true) (leafInsert key value es) := by
  induction es with
  | nil => simp [leafInsert]
  | cons x es ih =>
    obtain ⟨k, v⟩ := x
    rw [List.pairwise_cons] at hp
    obtain ⟨hx, hes⟩ := hp
    by_cases h1 : bytesLt k key = true
    · simp only [leafInsert, h1, if_true, List.pairwise_cons]
      refine ⟨?_, ih hes⟩
      intro a ha
      rcases mem_leafInsert key value es a ha with rfl | ha'
      · exact h1
      · exact hx a ha'
    · by_cases h2 : k = key
      · subst h2
        have heq : leafInsert k value ((k, v) :: es) = (k, value) :: es := by
          simp [leafInsert, h1]
        rw [heq, List.pairwise_cons]
        exact ⟨hx, hes⟩
      · have hlt : bytesLt key k = true := by
          rcases bytesLt_total key k with h | h | h
          · exact h
          · exact absurd h.symm h2
          · exact absurd h h1
        have heq : leafInsert key value ((k, v) :: es) = (key, value) :: (k, v) :: es := by
          simp [leafInsert, h1, h2]
        rw [heq, List.pairwise_cons, List.pairwise_cons]
        refine ⟨?_, hx, hes⟩
        intro a ha
        rcases List.mem_cons.mp ha with rfl | ha'
        · exact hlt
        · exact bytesLt_trans key k a.1 hlt (hx a ha')

theorem leafInsert_bounded (key value : Bytes) (lo hi : Option Bytes) (es : List Entry)
    (hb : leafBounded lo hi es) (hlo : lowerOk lo key) (hhi : upperOk key hi) :
    leafBounded lo hi (leafInsert key value es) := by
  refine ⟨leafInsert_pairwise key value es hb.1, ?_⟩
  intro e he
  rcases mem_leafInsert key value es e he with rfl | he'
  · exact ⟨hlo, hhi⟩
  · exact hb.2 e he'

/-! ## Splits -/

theorem splitLeaf_leaves (order : Nat) (es : List Entry) :
    ((splitLeaf order es).leaves 0).flatten = es := by
  unfold splitLeaf
  split
  · split
    · rename_i k v tl hd
      simp only [PutResult.leaves, leavesN, List.singleton_append, List.flatten_cons,
        List.flatten_nil, List.append_nil]
      rw [← hd, List.take_append_drop]
    · simp [PutResult.leaves, leavesN]
  · simp [PutResult.leaves, leavesN]

theorem splitLeaf_good (order : Nat) (es : List Entry) (ho : 3 ≤ order) (hne : es ≠ [])
    (hlen : es.length ≤ order) :
    ∀ l ∈ (splitLeaf order es).leaves 0, GoodLeaf order l := by
  unfold splitLeaf
  split
  · rename_i hover
    split
    · rename_i k v tl hd
      have hdl := congrArg List.length hd
      simp only [List.length_drop, List.length_cons] at hdl
      intro l hl
      simp only [PutResult.leaves, leavesN, List.singleton_append, List.mem_cons,
        List.mem_singleton, List.not_mem_nil, or_false] at hl
      rcases hl with rfl | rfl
      · constructor
        · intro hc
          have := congrArg List.length hc
          simp only [List.length_take, List.length_nil] at this
          omega
        · simp only [List.length_take]; omega
      · constructor
        · simp
        · simp only [List.length_cons]; omega
    · rename_i hd
      have hdl := congrArg List.length hd
      simp only [List.length_drop, List.length_nil] at hdl
      omega
  · rename_i hover
    intro l hl
    simp only [PutResult.leaves, leavesN, List.mem_singleton] at hl
    subst hl
    exact ⟨hne, by omega⟩

theorem splitLeaf_bounded (order : Nat) (lo hi : Option Bytes) (es : List Entry)
    (ho : 3 ≤ order) (hb : leafBounded lo hi es) :
    (splitLeaf order es).Bounded 0 lo hi := by
  unfold splitLeaf
  split
  · rename_i hover
    split
    · rename_i k v tl hd
      have hsplit : es = es.take (es.length / 2) ++ (k, v) :: tl := by
        rw [← hd, List.take_append_drop]
      obtain ⟨hp, hbd⟩ := hb
      have hp2 := hp
      rw [hsplit, List.pairwise_append, List.pairwise_cons] at hp2
      obtain ⟨hpl, ⟨hk, hpr⟩, hcross⟩ := hp2
      have hkmem : (k, v) ∈ es := by rw [hsplit]; simp
      have htakene : es.take (es.length / 2) ≠ [] := by
        intro hc
        have := congrArg List.length hc
        simp only [List.length_take, List.length_nil] at this
        omega
      obtain ⟨e0, he0⟩ := List.exists_mem_of_ne_nil _ htakene
      have he0k : bytesLt e0.1 k = true := hcross e0 he0 (k, v) (by simp)
      have he0mem : e0 ∈ es := List.mem_of_mem_take he0
      refine ⟨?_, (hbd _ hkmem).2, ⟨hpl, ?_⟩, ⟨List.pairwise_cons.mpr ⟨hk, hpr⟩, ?_⟩⟩
      · intro l hl
        have := (hbd e0 he0mem).1 l hl
        exact bytesLt_of_le_of_lt l e0.1 k this he0k
      · intro e he
        refine ⟨(hbd e (List.mem_of_mem_take he)).1, ?_⟩
        intro u hu
        cases hu
        exact hcross e he (k, v) (by simp)
      · intro e he
        have hemem : e ∈ es := by rw [hsplit]; exact List.mem_append_right _ he
        refine ⟨?_, (hbd e hemem).2⟩
        intro l hl
        cases hl
        rcases List.mem_cons.mp he with rfl | he'
        · exact bytesLt_irrefl _
        · exact bytesLt_asymm _ _ (hk e he')
    · exact hb
  · exact hb

/-! ## Internal nodes -/

theorem leavesN_cons (n : Nat) (c c1 : TreeN n) (s : Bytes) (rest : List (Bytes × TreeN n)) :
    leavesN (n + 1) (c, (s, c1) :: rest) = leavesN n c ++ leavesN (n + 1) (c1, rest) := by
  simp [leavesN]

theorem leavesN_nil (n : Nat) (c : TreeN n) : leavesN (n + 1) (c, []) = leavesN n c := by
  simp [leavesN]

theorem leavesN_append (n : Nat) (s : Bytes) (c' : TreeN n) (ys : List (Bytes × TreeN n))
    (xs : List (Bytes × TreeN n)) : ∀ (c : TreeN n),
    leavesN (n + 1) (c, xs ++ (s, c') :: ys) =
      leavesN (n + 1) (c, xs) ++ leavesN (n + 1) (c', ys) := by
  induction xs with
  | nil => intro c; rw [List.nil_append, leavesN_cons, leavesN_nil]
  | cons x xs ih =>
    intro c
    obtain ⟨s0, c0⟩ := x
    rw [List.cons_append, leavesN_cons, leavesN_cons, ih c0, List.append_assoc]

theorem entriesN_cons (n : Nat) (c c1 : TreeN n) (s : Bytes) (rest : List (Bytes × TreeN n)) :
    entriesN (n + 1) (c, (s, c1) :: rest) = entriesN n c ++ entriesN (n + 1) (c1, rest) := by
  simp [entriesN, leavesN_cons]

theorem entriesN_nil (n : Nat) (c : TreeN n) : entriesN (n + 1) (c, []) = entriesN n c := by
  simp [entriesN, leavesN_nil]

theorem lowerOk_of_lowerLt (lo : Option Bytes) (s key : Bytes) (hs : lowerLt lo s)
    (hk : bytesLt key s = false) : lowerOk lo key := by
  intro l hl
  exact bytesLt_asymm _ _ (bytesLt_of_lt_of_ge l s key (hs l hl) hk)

theorem upperOk_trans (key s : Bytes) (hi : Option Bytes) (hk : bytesLt key s = true)
    (hs : upperOk s hi) : upperOk key hi := by
  intro u hu
  exact bytesLt_trans key s u hk (hs u hu)

theorem lowerLt_trans (lo : Option Bytes) (s s' : Bytes) (hs : lowerLt lo s)
    (h : bytesLt s s' = true) : lowerLt lo s' := by
  intro l hl
  exact bytesLt_trans l s s' (hs l hl) h

/-- Every entry below a bounded node lies within the bounds. -/
theorem BoundedN.entries_within : ∀ (n : Nat) (lo hi : Option Bytes) (t : TreeN n),
    BoundedN n lo hi t → ∀ e ∈ entriesN n t, lowerOk lo e.1 ∧ upperOk e.1 hi := by
  intro n
  induction n with
  | zero =>
    intro lo hi es hb e he
    simp only [entriesN, leavesN, List.flatten_cons, List.flatten_nil, List.append_nil] at he
    exact hb.2 e he
  | succ n ih =>
    rintro lo hi ⟨c, rest⟩ hb
    induction rest generalizing lo c with
    | nil =>
      intro e he
      rw [entriesN_nil] at he
      exact ih lo hi c hb e he
    | cons x rest ihr =>
      obtain ⟨s, c1⟩ := x
      obtain ⟨hlo, hhi, hc, hrest⟩ := hb
      intro e he
      rw [entriesN_cons, List.mem_append] at he
      rcases he with he | he
      · have := ih lo (some s) c hc e he
        exact ⟨this.1, upperOk_trans e.1 s hi (this.2 s rfl) hhi⟩
      · have := ihr (some s) c1 hrest e he
        exact ⟨lowerOk_of_lowerLt lo s e.1 hlo (this.1 s rfl), this.2⟩

theorem childrenBounded_append (n : Nat) (hi : Option Bytes) (s : Bytes) (c' : TreeN n)
    (ys : List (Bytes × TreeN n)) (xs : List (Bytes × TreeN n)) :
    ∀ (lo : Option Bytes) (c : TreeN n),
      childrenBounded (BoundedN n) lo hi c (xs ++ (s, c') :: ys) →
      lowerLt lo s ∧ upperOk s hi ∧ childrenBounded (BoundedN n) lo (some s) c xs ∧
        childrenBounded (BoundedN n) (some s) hi c' ys := by
  induction xs with
  | nil =>
    intro lo c hb
    exact hb
  | cons x xs ih =>
    intro lo c hb
    obtain ⟨s0, c0⟩ := x
    obtain ⟨hlo, hhi, hc, hrest⟩ := hb
    obtain ⟨h1, h2, h3, h4⟩ := ih (some s0) c0 hrest
    have hs0s : bytesLt s0 s = true := h1 s0 rfl
    refine ⟨lowerLt_trans lo s0 s hlo hs0s, h2, ⟨hlo, ?_, hc, h3⟩, h4⟩
    intro u hu
    cases hu
    exact hs0s

theorem splitNode_leaves (order n : Nat) (c : TreeN n) (rest : List (Bytes × TreeN n)) :
    PutResult.leaves (n + 1) (splitNode order c rest) = leavesN (n + 1) (c, rest) := by
  unfold splitNode
  split
  · split
    · rename_i s c' tl hd
      have hsplit : rest = rest.take (rest.length / 2) ++ (s, c') :: tl := by
        rw [← hd, List.take_append_drop]
      simp only [PutResult.leaves]
      conv_rhs => rw [hsplit]
      rw [leavesN_append]
    · rfl
  · rfl

theorem splitNode_bounded (order n : Nat) (lo hi : Option Bytes) (c : TreeN n)
    (rest : List (Bytes × TreeN n)) (hb : childrenBounded (BoundedN n) lo hi c rest) :
    PutResult.Bounded (n + 1) lo hi (splitNode order c rest) := by
  unfold splitNode
  split
  · split
    · rename_i s c' tl hd
      have hsplit : rest = rest.take (rest.length / 2) ++ (s, c') :: tl := by
        rw [← hd, List.take_append_drop]
      rw [hsplit] at hb
      exact childrenBounded_append n hi s c' tl _ lo c hb
    · exact hb
  · exact hb

theorem splice_leaves (n : Nat) (r : PutResult (TreeN n)) (tl : List (Bytes × TreeN n)) :
    leavesN (n + 1) (splice r tl) = r.leaves n ++ (tl.map fun p => leavesN n p.2).flatten := by
  cases r with
  | one c => simp [splice, leavesN, PutResult.leaves]
  | two l s r => simp [splice, leavesN, PutResult.leaves]

/-! ## A put below an internal node -/

theorem splice_bounded_last (n : Nat) (lo hi : Option Bytes) (r : PutResult (TreeN n))
    (hr : r.Bounded n lo hi) :
    childrenBounded (BoundedN n) lo hi (splice r []).1 (splice r []).2 := by
  cases r with
  | one c => exact hr
  | two l s r => exact hr

theorem splice_bounded_cons (n : Nat) (lo hi : Option Bytes) (s : Bytes) (c1 : TreeN n)
    (tl : List (Bytes × TreeN n)) (r : PutResult (TreeN n)) (hr : r.Bounded n lo (some s))
    (hlo : lowerLt lo s) (hhi : upperOk s hi)
    (htl : childrenBounded (BoundedN n) (some s) hi c1 tl) :
    childrenBounded (BoundedN n) lo hi (splice r ((s, c1) :: tl)).1
      (splice r ((s, c1) :: tl)).2 := by
  cases r with
  | one c => exact ⟨hlo, hhi, hr, htl⟩
  | two l s' r =>
    obtain ⟨h1, h2, h3, h4⟩ := hr
    have hs : bytesLt s' s = true := h2 s rfl
    refine ⟨h1, upperOk_trans s' s hi hs hhi, h3, ?_, hhi, h4, htl⟩
    intro u hu
    cases hu
    exact hs

theorem putChildren_bounded (n : Nat) (key : Bytes) (rec : TreeN n → PutResult (TreeN n))
    (hrec : ∀ lo hi c, BoundedN n lo hi c → lowerOk lo key → upperOk key hi →
      (rec c).Bounded n lo hi)
    (hi : Option Bytes) (rest : List (Bytes × TreeN n)) :
    ∀ (lo : Option Bytes) (c : TreeN n), childrenBounded (BoundedN n) lo hi c rest →
      lowerOk lo key → upperOk key hi →
      childrenBounded (BoundedN n) lo hi (putChildren rec key c rest).1
        (putChildren rec key c rest).2 := by
  induction rest with
  | nil =>
    intro lo c hb hlo hhi
    exact splice_bounded_last n lo hi (rec c) (hrec lo hi c hb hlo hhi)
  | cons x rest ih =>
    intro lo c hb hlo hhi
    obtain ⟨s, c1⟩ := x
    obtain ⟨h1, h2, h3, h4⟩ := hb
    by_cases hk : bytesLt key s = true
    · simp only [putChildren, hk, if_true]
      refine splice_bounded_cons n lo hi s c1 rest (rec c) ?_ h1 h2 h4
      refine hrec lo (some s) c h3 hlo ?_
      intro u hu
      cases hu
      exact hk
    · have hk' : bytesLt key s = false := by simpa using hk
      simp only [putChildren, hk', Bool.false_eq_true, if_false]
      refine ⟨h1, h2, h3, ih (some s) c1 h4 ?_ hhi⟩
      intro l hl
      cases hl
      exact hk'

theorem putChildren_entries (n : Nat) (key value : Bytes)
    (rec : TreeN n → PutResult (TreeN n))
    (hrec : ∀ lo hi c, BoundedN n lo hi c → lowerOk lo key → upperOk key hi →
      ((rec c).leaves n).flatten = leafInsert key value (entriesN n c))
    (hi : Option Bytes) (rest : List (Bytes × TreeN n)) :
    ∀ (lo : Option Bytes) (c : TreeN n), childrenBounded (BoundedN n) lo hi c rest →
      lowerOk lo key → upperOk key hi →
      entriesN (n + 1) (putChildren rec key c rest) =
        leafInsert key value (entriesN (n + 1) (c, rest)) := by
  induction rest with
  | nil =>
    intro lo c hb hlo hhi
    simp only [putChildren, entriesN, splice_leaves, List.map_nil, List.flatten_nil,
      List.append_nil, leavesN_nil]
    exact hrec lo hi c hb hlo hhi
  | cons x rest ih =>
    intro lo c hb hlo hhi
    obtain ⟨s, c1⟩ := x
    obtain ⟨h1, h2, h3, h4⟩ := hb
    by_cases hk : bytesLt key s = true
    · have hup : upperOk key (some s) := by
        intro u hu
        cases hu
        exact hk
      have hright : ∀ e ∈ entriesN (n + 1) (c1, rest), bytesLt key e.1 = true := by
        intro e he
        have := (BoundedN.entries_within (n + 1) (some s) hi (c1, rest) h4 e he).1 s rfl
        exact bytesLt_of_lt_of_ge key s e.1 hk this
      rw [entriesN_cons, leafInsert_append_right key value _ _ hright,
        ← hrec lo (some s) c h3 hlo hup]
      simp only [putChildren, hk, if_true, entriesN, splice_leaves, List.flatten_append]
      simp [leavesN]
    · have hk' : bytesLt key s = false := by simpa using hk
      have hlow : lowerOk (some s) key := by
        intro l hl
        cases hl
        exact hk'
      have hleft : ∀ e ∈ entriesN n c, bytesLt e.1 key = true := by
        intro e he
        have := (BoundedN.entries_within n lo (some s) c h3 e he).2 s rfl
        exact bytesLt_of_lt_of_le e.1 s key this hk'
      rw [entriesN_cons, leafInsert_append_left key value _ _ hleft,
        ← ih (some s) c1 h4 hlow hhi]
      simp only [putChildren, hk', Bool.false_eq_true, if_false]
      rw [entriesN_cons]

/-- What `putN` does to a bounded node: the result is bounded and its
entries are those of the node with the pair put in sorted position. -/
theorem putN_spec (order : Nat) (ho : 3 ≤ order) (key value : Bytes) :
    ∀ (n : Nat) (lo hi : Option Bytes) (t : TreeN n), BoundedN n lo hi t →
      lowerOk lo key → upperOk key hi →
      (putN order key value n t).Bounded n lo hi ∧
        ((putN order key value n t).leaves n).flatten =
          leafInsert key value (entriesN n t) := by
  intro n
  induction n with
  | zero =>
    intro lo hi es hb hlo hhi
    simp only [putN, leafPut_eq_leafInsert]
    refine ⟨splitLeaf_bounded order lo hi _ ho (leafInsert_bounded key value lo hi es hb hlo hhi),
      ?_⟩
    rw [splitLeaf_leaves]
    simp [entriesN, leavesN]
  | succ n ih =>
    rintro lo hi ⟨c, rest⟩ hb hlo hhi
    simp only [putN]
    refine ⟨splitNode_bounded order n lo hi _ _
      (putChildren_bounded n key _ (fun lo hi c h1 h2 h3 => (ih lo hi c h1 h2 h3).1)
        hi rest lo c hb hlo hhi), ?_⟩
    rw [splitNode_leaves]
    exact putChildren_entries n key value _ (fun lo hi c h1 h2 h3 => (ih lo hi c h1 h2 h3).2)
      hi rest lo c hb hlo hhi

/-! ## Leaves after a put -/

theorem putChildren_good (order n : Nat) (key : Bytes) (rec : TreeN n → PutResult (TreeN n))
    (hrec : ∀ c, (∀ l ∈ leavesN n c, l.length ≤ order - 1) →
      ∀ l ∈ (rec c).leaves n, GoodLeaf order l ∨ l ∈ leavesN n c)
    (rest : List (Bytes × TreeN n)) :
    ∀ (c : TreeN n), (∀ l ∈ leavesN (n + 1) (c, rest), l.length ≤ order - 1) →
      ∀ l ∈ leavesN (n + 1) (putChildren rec key c rest),
        GoodLeaf order l ∨ l ∈ leavesN (n + 1) (c, rest) := by
  induction rest with
  | nil =>
    intro c hlen l hl
    simp only [putChildren, splice_leaves, List.map_nil, List.flatten_nil,
      List.append_nil] at hl
    rw [leavesN_nil] at hlen ⊢
    exact hrec c hlen l hl
  | cons x rest ih =>
    intro c hlen l hl
    obtain ⟨s, c1⟩ := x
    rw [leavesN_cons] at hlen ⊢
    by_cases hk : bytesLt key s = true
    · simp only [putChildren, hk, if_true, splice_leaves, List.mem_append] at hl
      rcases hl with hl | hl
      · rcases hrec c (fun l hl => hlen l (List.mem_append_left _ hl)) l hl with h | h
        · exact Or.inl h
        · exact Or.inr (List.mem_append_left _ h)
      · refine Or.inr (List.mem_append_right _ ?_)
        simpa [leavesN] using hl
    · have hk' : bytesLt key s = false := by simpa using hk
      simp only [putChildren, hk', Bool.false_eq_true, if_false] at hl
      rw [leavesN_cons, List.mem_append] at hl
      rcases hl with hl | hl
      · exact Or.inr (List.mem_append_left _ hl)
      · rcases ih c1 (fun l hl => hlen l (List.mem_append_right _ hl)) l hl with h | h
        · exact Or.inl h
        · exact Or.inr (List.mem_append_right _ h)

theorem putN_good (order : Nat) (ho : 3 ≤ order) (key value : Bytes) :
    ∀ (n : Nat) (t : TreeN n), (∀ l ∈ leavesN n t, l.length ≤ order - 1) →
      ∀ l ∈ (putN order key value n t).leaves n,
        GoodLeaf order l ∨ (0 < n ∧ l ∈ leavesN n t) := by
  intro n
  induction n with
  | zero =>
    intro es hlen l hl
    left
    simp only [putN, leafPut_eq_leafInsert] at hl
    have h1 := hlen es (by simp [leavesN])
    have h2 := leafInsert_length_le key value es
    exact splitLeaf_good order _ ho (leafInsert_ne_nil key value es) (by omega) l hl
  | succ n ih =>
    rintro ⟨c, rest⟩ hlen l hl
    simp only [putN] at hl
    rw [splitNode_leaves] at hl
    have hrec : ∀ c, (∀ l ∈ leavesN n c, l.length ≤ order - 1) →
        ∀ l ∈ (putN order key value n c).leaves n, GoodLeaf order l ∨ l ∈ leavesN n c := by
      intro c hc l hl
      rcases ih c hc l hl with h | h
      · exact Or.inl h
      · exact Or.inr h.2
    rcases putChildren_good order n key _ hrec rest c hlen l hl with h | h
    · exact Or.inl h
    · exact Or.inr ⟨Nat.succ_pos n, h⟩

/-! ## Lookups -/

theorem assoc_append_left (key : Bytes) (A B : List Entry)
    (hA : ∀ e ∈ A, e.1 ≠ key) : assoc key (A ++ B) = assoc key B := by
  induction A with
  | nil => rfl
  | cons x A ih =>
    have hx : x.1 ≠ key := hA x (by simp)
    have := ih (fun e he => hA e (List.mem_cons_of_mem _ he))
    simp only [assoc, List.cons_append, List.find?_cons, hx, decide_False] at this ⊢
    exact this

theorem assoc_eq_none (key : Bytes) (A : List Entry) (hA : ∀ e ∈ A, e.1 ≠ key) :
    assoc key A = none := by
  have := assoc_append_left key A [] hA
  rw [List.append_nil] at this
  rw [this]; rfl

theorem assoc_append_right (key : Bytes) (A B : List Entry)
    (hB : ∀ e ∈ B, e.1 ≠ key) : assoc key (A ++ B) = assoc key A := by
  induction A with
  | nil => rw [List.nil_append, assoc_eq_none key B hB]; rfl
  | cons x A ih =>
    by_cases hx : x.1 = key
    · simp [assoc, List.find?_cons, hx]
    · simp only [assoc, List.cons_append, List.find?_cons, hx, decide_False] at ih ⊢
      exact ih

theorem leafGet_cons_of_lt (key k v : Bytes) (es : List Entry) (hlt : bytesLt k key = true) :
    leafGet key ((k, v) :: es) = leafGet key es := by
  have hs : search key (((k, v) :: es).map Prod.fst) =
      search key (es.map Prod.fst) + 1 := by simp [search, hlt]
  unfold leafGet
  simp only [hs, List.getElem?_cons_succ]

theorem leafGet_eq_assoc (key : Bytes) (es : List Entry)
    (hp : List.Pairwise (fun a b : Entry => bytesLt a.1 b.1 = true) es) :
    leafGet key es = assoc key es := by
  induction es with
  | nil => simp [leafGet, assoc, search]
  | cons x es ih =>
    obtain ⟨k, v⟩ := x
    rw [List.pairwise_cons] at hp
    obtain ⟨hx, hes⟩ := hp
    by_cases hlt : bytesLt k key = true
    · rw [leafGet_cons_of_lt key k v es hlt, ih hes]
      have hne : k ≠ key := bytesLt_ne k key hlt
      simp [assoc, List.find?_cons, hne]
    · have hs : search key (((k, v) :: es).map Prod.fst) = 0 := by simp [search, hlt]
      unfold leafGet
      simp only [hs, List.getElem?_cons_zero]
      by_cases hk : k = key
      · simp [assoc, List.find?_cons, hk]
      · have hkk : bytesLt key k = true := by
          rcases bytesLt_total key k with h | h | h
          · exact h
          · exact absurd h.symm hk
          · exact absurd h hlt
        have hnone : assoc key es = none := by
          apply assoc_eq_none
          intro e he
          exact (bytesLt_ne key e.1 (bytesLt_trans key k e.1 hkk (hx e he))).symm
        simp only [assoc, List.find?_cons, hk, decide_False, if_false] at hnone ⊢
        rw [hnone]

theorem chooseChild_get (n : Nat) (key : Bytes)
    (ih : ∀ lo hi c, BoundedN n lo hi c → getN key n c = assoc key (entriesN n c))
    (hi : Option Bytes) (rest : List (Bytes × TreeN n)) :
    ∀ (lo : Option Bytes) (c : TreeN n), childrenBounded (BoundedN n) lo hi c rest →
      getN key n (chooseChild key c rest) = assoc key (entriesN (n + 1) (c, rest)) := by
  induction rest with
  | nil =>
    intro lo c hb
    rw [entriesN_nil]
    exact ih lo hi c hb
  | cons x rest ihr =>
    intro lo c hb
    obtain ⟨s, c1⟩ := x
    obtain ⟨h1, h2, h3, h4⟩ := hb
    rw [entriesN_cons]
    by_cases hk : bytesLt key s = true
    · simp only [chooseChild, hk, if_true]
      rw [assoc_append_right, ih lo (some s) c h3]
      intro e he
      have := (BoundedN.entries_within (n + 1) (some s) hi (c1, rest) h4 e he).1 s rfl
      exact (bytesLt_ne key e.1 (bytesLt_of_lt_of_ge key s e.1 hk this)).symm
    · have hk' : bytesLt key s = false := by simpa using hk
      simp only [chooseChild, hk', Bool.false_eq_true, if_false]
      rw [assoc_append_left, ihr (some s) c1 h4]
      intro e he
      have := (BoundedN.entries_within n lo (some s) c h3 e he).2 s rfl
      exact bytesLt_ne e.1 key (bytesLt_of_lt_of_le e.1 s key this hk')

theorem getN_eq_assoc (key : Bytes) : ∀ (n : Nat) (lo hi : Option Bytes) (t : TreeN n),
    BoundedN n lo hi t → getN key n t = assoc key (entriesN n t) := by
  intro n
  induction n with
  | zero =>
    intro lo hi es hb
    simp only [getN, entriesN, leavesN, List.flatten_cons, List.flatten_nil, List.append_nil]
    exact leafGet_eq_assoc key es hb.1
  | succ n ih =>
    rintro lo hi ⟨c, rest⟩ hb
    simp only [getN]
    exact chooseChild_get n key ih hi rest lo c hb

theorem assoc_leafInsert_self (key value : Bytes) (es : List Entry) :
    assoc key (leafInsert key value es) = some value := by
  induction es with
  | nil => simp [assoc, leafInsert]
  | cons x es ih =>
    obtain ⟨k, v⟩ := x
    by_cases h1 : bytesLt k key = true
    · have hne : k ≠ key := bytesLt_ne k key h1
      simp only [assoc, leafInsert, h1, if_true, List.find?_cons, hne, decide_False] at ih ⊢
      exact ih
    · by_cases h2 : k = key
      · subst h2; simp [assoc, leafInsert, bytesLt_irrefl]
      · simp [assoc, leafInsert, h1, h2]

theorem assoc_leafInsert_other (key value key' : Bytes) (es : List Entry) (hne : key ≠ key') :
    assoc key' (leafInsert key value es) = assoc key' es := by
  induction es with
  | nil => simp [assoc, leafInsert, hne]
  | cons x es ih =>
    obtain ⟨k, v⟩ := x
    by_cases h1 : bytesLt k key = true
    · by_cases hk : k = key'
      · subst hk
        simp [assoc, leafInsert, h1]
      · simp only [assoc, leafInsert, h1, if_true, List.find?_cons, hk, decide_False] at ih ⊢
        exact ih
    · by_cases h2 : k = key
      · subst h2; simp [assoc, leafInsert, bytesLt_irrefl, hne]
      · simp [assoc, leafInsert, h1, h2, hne]

/-! ## Trees -/

theorem Tree.Put_leaves (t : Tree) (key value : Bytes) :
    (t.Put key value).leaves = (putN t.order key value t.height t.root).leaves t.height := by
  unfold Tree.Put Tree.leaves
  split
  · rename_i r hr
    rw [hr]; rfl
  · rename_i l s r hr
    rw [hr]
    simp [PutResult.leaves, leavesN]

theorem Tree.Put_order (t : Tree) (key value : Bytes) : (t.Put key value).order = t.order := by
  unfold Tree.Put
  split <;> rfl

theorem Tree.Put_bounded (t : Tree) (key value : Bytes)
    (hb : (putN t.order key value t.height t.root).Bounded t.height none none) :
    BoundedN (t.Put key value).height none none (t.Put key value).root := by
  unfold Tree.Put
  split
  · rename_i r hr
    rw [hr] at hb
    exact hb
  · rename_i l s r hr
    rw [hr] at hb
    exact hb

theorem Tree.Put_height (t : Tree) (key value : Bytes) :
    (t.Put key value).height = t.height ∨ (t.Put key value).height = t.height + 1 := by
  unfold Tree.Put
  split
  · exact Or.inl rfl
  · exact Or.inr rfl

/-- One `Put` on a tree that satisfies the invariant. -/
theorem Tree.Put_spec (t : Tree) (key value : Bytes) (hinv : t.Inv) :
    (t.Put key value).Inv ∧ (t.Put key value).order = t.order ∧
      (t.Put key value).entries = leafInsert key value t.entries ∧
      ∀ l ∈ (t.Put key value).leaves, GoodLeaf t.order l := by
  obtain ⟨ho, hb, hlen, hne⟩ := hinv
  have hspec := putN_spec t.order ho key value t.height none none t.root hb
    (fun l hl => by cases hl) (fun u hu => by cases hu)
  have hgood : ∀ l ∈ (t.Put key value).leaves, GoodLeaf t.order l := by
    intro l hl
    rw [Tree.Put_leaves] at hl
    rcases putN_good t.order ho key value t.height t.root hlen l hl with h | ⟨hpos, hmem⟩
    · exact h
    · rcases hne with h0 | hall
      · omega
      · exact ⟨hall l hmem, hlen l hmem⟩
  have hord := Tree.Put_order t key value
  refine ⟨⟨by rw [hord]; exact ho, Tree.Put_bounded t key value hspec.1, ?_, ?_⟩, hord, ?_,
    hgood⟩
  · intro l hl
    rw [hord]
    exact (hgood l hl).2
  · exact Or.inr fun l hl => (hgood l hl).1
  · have : (t.Put key value).entries = (t.Put key value).leaves.flatten := rfl
    rw [this, Tree.Put_leaves, hspec.2]
    rfl

theorem Tree.puts_cons (t : Tree) (kv : Entry) (ops : List Entry) :
    t.puts (kv :: ops) = (t.Put kv.1 kv.2).puts ops := rfl

/-- A sequence of `Put` calls on a tree that satisfies the invariant. -/
theorem Tree.puts_spec (ops : List Entry) : ∀ (t : Tree), t.Inv →
    (t.puts ops).Inv ∧ (t.puts ops).order = t.order ∧
      (t.puts ops).entries = ops.foldl (fun es kv => leafInsert kv.1 kv.2 es) t.entries ∧
      (ops ≠ [] → ∀ l ∈ (t.puts ops).leaves, GoodLeaf t.order l) := by
  induction ops with
  | nil =>
    intro t hinv
    exact ⟨hinv, rfl, rfl, fun h => absurd rfl h⟩
  | cons kv ops ih =>
    intro t hinv
    obtain ⟨h1, h2, h3, h4⟩ := Tree.Put_spec t kv.1 kv.2 hinv
    obtain ⟨i1, i2, i3, i4⟩ := ih (t.Put kv.1 kv.2) h1
    rw [Tree.puts_cons]
    refine ⟨i1, i2.trans h2, ?_, fun _ => ?_⟩
    · rw [i3, h3]; rfl
    · cases ops with
      | nil => exact h4
      | cons kv' ops' =>
        intro l hl
        have := i4 (by simp) l hl
        rw [h2] at this
        exact this

theorem New_spec (order : Nat) (t : Tree) (hn : New order = some t) :
    t.Inv ∧ t.order = order ∧ t.entries = [] ∧ t.leaves = [[]] := by
  unfold New at hn
  split at hn
  · cases hn
  · rename_i ho
    cases hn
    refine ⟨⟨by show 3 ≤ order; omega, ?_, ?_, Or.inl rfl⟩, rfl, rfl, rfl⟩
    · exact ⟨List.Pairwise.nil, fun e he => by cases he⟩
    · intro l hl
      simp only [Tree.leaves, leavesN, List.mem_singleton] at hl
      subst hl
      simp

theorem New_isSome (order : Nat) (ho : 3 ≤ order) : ∃ t, New order = some t := by
  unfold New
  rw [if_neg (by omega)]
  exact ⟨_, rfl⟩

/-! ## The entries after a sequence of puts -/

theorem foldl_leafInsert_pairwise (ops : List Entry) : ∀ (es : List Entry),
    List.Pairwise (fun a b : Entry => bytesLt a.1 b.1 = true) es →
    List.Pairwise (fun a b : Entry => bytesLt a.1 b.1 = true)
      (ops.foldl (fun es kv => leafInsert kv.1 kv.2 es) es) := by
  induction ops with
  | nil => intro es h; exact h
  | cons kv ops ih =>
    intro es h
    exact ih _ (leafInsert_pairwise kv.1 kv.2 es h)

theorem mem_keys_leafInsert (key value key' : Bytes) (es : List Entry) :
    key' ∈ (leafInsert key value es).map Prod.fst ↔ key' = key ∨ key' ∈ es.map Prod.fst := by
  induction es with
  | nil => simp [leafInsert]
  | cons x es ih =>
    obtain ⟨k, v⟩ := x
    by_cases h1 : bytesLt k key = true
    · simp only [leafInsert, h1, if_true, List.map_cons, List.mem_cons, ih]
      tauto
    · by_cases h2 : k = key
      · subst h2
        simp [leafInsert, bytesLt_irrefl]
      · simp [leafInsert, h1, h2]

theorem mem_keys_foldl_leafInsert (key : Bytes) (ops : List Entry) : ∀ (es : List Entry),
    key ∈ (ops.foldl (fun es kv => leafInsert kv.1 kv.2 es) es).map Prod.fst ↔
      key ∈ ops.map Prod.fst ∨ key ∈ es.map Prod.fst := by
  induction ops with
  | nil => intro es; simp
  | cons kv ops ih =>
    intro es
    rw [List.foldl_cons, ih, mem_keys_leafInsert]
    simp only [List.map_cons, List.mem_cons]
    tauto

theorem assoc_append (key : Bytes) (A B : List Entry) :
    assoc key (A ++ B) = (assoc key A).or (assoc key B) := by
  induction A with
  | nil => simp [assoc]
  | cons x A ih =>
    by_cases hx : x.1 = key
    · simp [assoc, List.find?_cons, hx]
    · simp only [assoc, List.cons_append, List.find?_cons, hx, decide_False] at ih ⊢
      exact ih

theorem assoc_foldl_leafInsert (key : Bytes) (ops : List Entry) : ∀ (es : List Entry),
    assoc key (ops.foldl (fun es kv => leafInsert kv.1 kv.2 es) es) =
      (lastPut key ops).or (assoc key es) := by
  induction ops with
  | nil => intro es; simp [lastPut, assoc]
  | cons kv ops ih =>
    intro es
    rw [List.foldl_cons, ih]
    unfold lastPut
    rw [List.reverse_cons, assoc_append]
    cases hrev : assoc key ops.reverse with
    | some v => simp
    | none =>
      simp only [Option.none_or]
      by_cases hk : kv.1 = key
      · subst hk
        rw [assoc_leafInsert_self]
        simp [assoc]
      · rw [assoc_leafInsert_other kv.1 kv.2 key es hk]
        simp [assoc, List.find?_cons, hk]

/-! ## The leaf chain of a tree -/

theorem GoInt.val_wrap_of_le (n : Nat) (hn : n ≤ 9223372036854775807) :
    (GoInt.wrap n).val = n := by
  show wrapInt n = n
  unfold wrapInt
  omega

theorem pairs_of_entries (es : List Entry) :
    ((es.map Prod.fst).zip (es.map fun e => Pointer.value e.2)).filterMap (fun kp =>
      match kp.2 with
      | Pointer.value v => some (kp.1, v)
      | Pointer.child _ => none) = es := by
  induction es with
  | nil => rfl
  | cons e es ih =>
    simp only [List.map_cons, List.zip_cons_cons, List.filterMap_cons, ih]

theorem chainNode_pairs (ls : List (List Entry)) (a : Addr)
    (hlen : (ls.getD a []).length ≤ 9223372036854775807) :
    (chainNode ls a).pairs = ls.getD a [] := by
  have hv := GoInt.val_wrap_of_le _ hlen
  unfold Node.pairs
  simp only [chainNode, hv, Int.toNat_ofNat]
  rw [List.take_of_length_le (by simp), List.take_of_length_le (by simp)]
  exact pairs_of_entries _

theorem chainNode_leafOk (ls : List (List Entry)) (a : Addr)
    (hne : ls.getD a [] ≠ []) (hlen : (ls.getD a []).length ≤ 9223372036854775807) :
    LeafOk (chainNode ls a) := by
  have hv := GoInt.val_wrap_of_le _ hlen
  have hpos : 0 < (ls.getD a []).length := List.length_pos.mpr hne
  refine ⟨?_, ?_, ?_, ?_⟩
  · simp only [chainNode, hv]; omega
  · simp only [chainNode, hv, List.length_map]; exact le_refl _
  · simp only [chainNode, hv, List.length_map]; exact le_refl _
  · intro p hp
    have hp2 := List.mem_of_mem_take hp
    simp only [chainNode, List.mem_map] at hp2
    obtain ⟨e, _, rfl⟩ := hp2
    rfl

theorem chain_linked_forward (ls : List (List Entry)) : ∀ (len j : Nat),
    j + len = ls.length →
    Linked (chainNode ls) Node.nextLeaf (if len = 0 then none else some j) (List.range' j len) := by
  intro len
  induction len with
  | zero => intro j _; simp [List.range', Linked]
  | succ len ih =>
    intro j hj
    simp only [List.range', Linked, Nat.succ_ne_zero, if_false, true_and]
    have hnext : (chainNode ls j).nextLeaf = if len = 0 then none else some (j + 1) := by
      simp only [chainNode]
      by_cases hl : len = 0
      · rw [if_neg (show ¬ (j + 1 < ls.length) by omega), if_pos hl]
      · rw [if_pos (show j + 1 < ls.length by omega), if_neg hl]
    rw [hnext]
    exact ih (j + 1) (by omega)

theorem chain_linked_backward (ls : List (List Entry)) : ∀ (j : Nat), j < ls.length →
    Linked (chainNode ls) Node.prevLeaf (some j) (List.range (j + 1)).reverse := by
  intro j
  induction j with
  | zero =>
    intro _
    simp [List.range_succ, Linked, chainNode]
  | succ j ih =>
    intro hj
    rw [List.range_succ, List.reverse_append]
    simp only [List.reverse_cons, List.reverse_nil, List.nil_append, List.singleton_append,
      Linked, true_and]
    have hprev : (chainNode ls (j + 1)).prevLeaf = some j := by
      simp only [chainNode]
      rw [if_pos (show 0 < j + 1 ∧ j + 1 < ls.length from ⟨by omega, hj⟩)]
      rfl
    rw [hprev]
    exact ih (by omega)

theorem map_getD_range (ls : List (List Entry)) :
    (List.range ls.length).map (fun a => ls.getD a []) = ls := by
  apply List.ext_getElem
  · simp
  · intro i h1 h2
    simp [List.getD_eq_getElem?_getD, List.getElem?_eq_getElem h2]

theorem chain_pairs (ls : List (List Entry))
    (hlen : ∀ l ∈ ls, l.length ≤ 9223372036854775807) :
    chainPairs (chainNode ls) (List.range ls.length) = ls.flatten := by
  unfold chainPairs
  have : (List.range ls.length).map (fun a => (chainNode ls a).pairs) =
      (List.range ls.length).map (fun a => ls.getD a []) := by
    apply List.map_congr_left
    intro a ha
    apply chainNode_pairs
    have ha' : a < ls.length := List.mem_range.mp ha
    rw [List.getD_eq_getElem?_getD, List.getElem?_eq_getElem ha', Option.getD_some]
    exact hlen _ (List.getElem_mem ha')
  rw [this, map_getD_range]

/-- The leaf chain of non-empty leaves is well formed in both directions. -/
theorem chain_wellFormed (ls : List (List Entry)) (hne : ls ≠ [])
    (hgood : ∀ l ∈ ls, l ≠ [] ∧ l.length ≤ 9223372036854775807) :
    ForwardChain (chainNode ls) ⟨some 0, some (ls.length - 1)⟩ (List.range ls.length) ∧
    BackwardChain (chainNode ls) ⟨some 0, some (ls.length - 1)⟩ (List.range ls.length) := by
  have hpos : 0 < ls.length := List.length_pos.mpr hne
  have hrne : List.range ls.length ≠ [] := by
    intro hc
    have := List.range_eq_nil.mp hc
    omega
  have hok : ∀ a ∈ List.range ls.length, LeafOk (chainNode ls a) := by
    intro a ha
    have ha' : a < ls.length := List.mem_range.mp ha
    have hget : ls.getD a [] = ls[a] := by
      rw [List.getD_eq_getElem?_getD, List.getElem?_eq_getElem ha', Option.getD_some]
    have := hgood _ (List.getElem_mem ha')
    exact chainNode_leafOk ls a (by rw [hget]; exact this.1) (by rw [hget]; exact this.2)
  refine ⟨⟨hrne, ?_, hok⟩, ⟨hrne, ?_, hok⟩⟩
  · have := chain_linked_forward ls ls.length 0 (by omega)
    rw [if_neg (show ¬ (ls.length = 0) by omega), ← List.range_eq_range'] at this
    exact this
  · have := chain_linked_backward ls (ls.length - 1) (by omega)
    rw [show ls.length - 1 + 1 = ls.length by omega] at this
    exact this

theorem leavesN_ne_nil : ∀ (n : Nat) (t : TreeN n), leavesN n t ≠ [] := by
  intro n
  induction n with
  | zero => intro es; simp [leavesN]
  | succ n ih =>
    rintro ⟨c, rest⟩
    simp only [leavesN, ne_eq, List.append_eq_nil, not_and]
    intro hc
    exact absurd hc (ih c)

theorem Tree.Get_eq (t : Tree) (key : Bytes) (hinv : t.Inv) :
    t.Get key = match assoc key t.entries with
      | some v => (v, true)
      | none => ([], false) := by
  unfold Tree.Get
  rw [getN_eq_assoc key t.height none none t.root hinv.2.1]
  rfl

theorem lastPut_of_latest (key v : Bytes) (pre post : List Entry)
    (hpost : key ∉ post.map Prod.fst) : lastPut key (pre ++ (key, v) :: post) = some v := by
  unfold lastPut
  rw [List.reverse_append, List.reverse_cons, List.append_assoc, assoc_append,
    assoc_eq_none key post.reverse]
  · simp [assoc]
  · intro e he hk
    exact hpost (List.mem_map.mpr ⟨e, List.mem_reverse.mp he, hk⟩)

theorem lastPut_of_absent (key : Bytes) (ops : List Entry) (h : key ∉ ops.map Prod.fst) :
    lastPut key ops = none := by
  unfold lastPut
  apply assoc_eq_none
  intro e he hk
  exact h (List.mem_map.mpr ⟨e, List.mem_reverse.mp he, hk⟩)

/-- The entries of the tree built by a sequence of puts on a new tree. -/
theorem puts_on_new (order : Nat) (t0 : Tree) (hn : New order = some t0) (ops : List Entry) :
    (t0.puts ops).Inv ∧ (t0.puts ops).order = order ∧
      (t0.puts ops).entries = ops.foldl (fun es kv => leafInsert kv.1 kv.2 es) [] ∧
      (ops = [] → (t0.puts ops).leaves = [[]]) ∧
      (ops ≠ [] → ∀ l ∈ (t0.puts ops).leaves, GoodLeaf order l) := by
  obtain ⟨h1, h2, h3, h4⟩ := New_spec order t0 hn
  obtain ⟨i1, i2, i3, i4⟩ := Tree.puts_spec ops t0 h1
  rw [h3] at i3
  rw [h2] at i4
  refine ⟨i1, i2.trans h2, i3, ?_, i4⟩
  rintro rfl
  exact h4

/-! ## Claims on `Put` and `Get` -/

/-- C14: after any sequence of `Put` calls on a new tree, `Get(k)` returns
`(v, true)` where `(k, v)` is the latest put of `k`, and `found = false` for
a key that was never put. -/
theorem get_returns_latest_put (order : Nat) (ho : 3 ≤ order) (ops : List Entry)
    (key : Bytes) :
    ∃ t0, New order = some t0 ∧
      (∀ pre v post, ops = pre ++ (key, v) :: post → key ∉ post.map Prod.fst →
        (t0.puts ops).Get key = (v, true)) ∧
      (key ∉ ops.map Prod.fst → ((t0.puts ops).Get key).2 = false) := by
  obtain ⟨t0, hn⟩ := New_isSome order ho
  obtain ⟨hinv, _, hent, _, _⟩ := puts_on_new order t0 hn ops
  have hget := Tree.Get_eq (t0.puts ops) key hinv
  rw [hent, assoc_foldl_leafInsert key ops []] at hget
  refine ⟨t0, hn, ?_, ?_⟩
  · intro pre v post hops hpost
    rw [hget, hops, lastPut_of_latest key v pre post hpost]
    rfl
  · intro habs
    rw [hget, lastPut_of_absent key ops habs]
    rfl

/-- Witness of C14: after the three puts of `ExampleIterator` on a tree of
order 3, `Get(banana)` returns `(honey, true)`. -/
theorem get_returns_latest_put_witness :
    3 ≤ 3 ∧
    (New 3).map (fun t => (t.puts fruitPuts).Get [98, 97, 110, 97, 110, 97]) =
      some ([104, 111, 110, 101, 121], true) ∧
    ∃ t0, New 3 = some t0 ∧
      (∀ pre v post, fruitPuts = pre ++ (([98, 97, 110, 97, 110, 97] : Bytes), v) :: post →
        ([98, 97, 110, 97, 110, 97] : Bytes) ∉ post.map Prod.fst →
        (t0.puts fruitPuts).Get [98, 97, 110, 97, 110, 97] = (v, true)) ∧
      (([98, 97, 110, 97, 110, 97] : Bytes) ∉ fruitPuts.map Prod.fst →
        ((t0.puts fruitPuts).Get [98, 97, 110, 97, 110, 97]).2 = false) :=
  ⟨by decide, by decide,
    get_returns_latest_put 3 (by decide) fruitPuts [98, 97, 110, 97, 110, 97]⟩

theorem chainNode_empty_keyNum : (chainNode [[]] 0).keyNum = 0 := by decide

/-- Draining both iterators over the leaf chain that holds the leaves `ls`:
the forward iterator yields the entries, the reverse iterator their
reversal. -/
theorem drain_chain (ls : List (List Entry))
    (hshape : ls = [[]] ∨ (ls ≠ [] ∧ ∀ l ∈ ls, l ≠ [] ∧ l.length ≤ 9223372036854775807)) :
    ∃ itf itr, (⟨some 0, some (ls.length - 1)⟩ : BPTree).Iterator (chainNode ls)
        (some ⟨false⟩) = .ok itf ∧
      (⟨some 0, some (ls.length - 1)⟩ : BPTree).Iterator (chainNode ls)
        (some ⟨true⟩) = .ok itr ∧
      ∀ fuel, ls.flatten.length ≤ fuel →
        (∃ fin, drain (chainNode ls) fuel itf = some (ls.flatten, fin)) ∧
        (∃ fin, drain (chainNode ls) fuel itr = some (ls.flatten.reverse, fin)) := by
  rcases hshape with rfl | ⟨hne, hgood⟩
  · refine ⟨_, _, rfl, rfl, ?_⟩
    intro fuel _
    refine ⟨⟨_, drain_of_not_hasNext _ fuel _ (by decide)⟩,
      ⟨_, drain_of_not_hasNext _ fuel _ (by decide)⟩⟩
  · obtain ⟨hf, hb⟩ := chain_wellFormed ls hne hgood
    have hcp := chain_pairs ls (fun l hl => (hgood l hl).2)
    refine ⟨_, _, rfl, rfl, ?_⟩
    intro fuel hfuel
    have h1 := drain_forward _ _ _ hf fuel (by rw [hcp]; exact hfuel)
    have h2 := drain_reverse _ _ _ hb fuel (by rw [hcp]; exact hfuel)
    rw [hcp] at h1 h2
    exact ⟨⟨_, h1⟩, ⟨_, h2⟩⟩

/-- C6: for any sequence of `Put` calls on a new tree, draining the forward
iterator over the tree's leaf chain yields keys in strictly ascending byte
order that are exactly the keys put, each once, and draining the reverse
iterator yields the same pairs in the reverse, strictly descending, order. -/
theorem iteration_after_puts (order : Nat) (ho : 3 ≤ order)
    (hmax : order ≤ 9223372036854775807) (ops : List Entry) :
    ∃ t0 itf itr ps, New order = some t0 ∧
      (t0.puts ops).ends.Iterator (t0.puts ops).heap (some ⟨false⟩) = .ok itf ∧
      (t0.puts ops).ends.Iterator (t0.puts ops).heap (some ⟨true⟩) = .ok itr ∧
      (∀ fuel, ps.length ≤ fuel →
        (∃ fin, drain (t0.puts ops).heap fuel itf = some (ps, fin)) ∧
        (∃ fin, drain (t0.puts ops).heap fuel itr = some (ps.reverse, fin))) ∧
      List.Pairwise (fun x y => bytesLt x y = true) (ps.map Prod.fst) ∧
      (∀ key, key ∈ ps.map Prod.fst ↔ key ∈ ops.map Prod.fst) ∧
      List.Pairwise (fun x y => bytesLt y x = true) (ps.reverse.map Prod.fst) := by
  obtain ⟨t0, hn⟩ := New_isSome order ho
  obtain ⟨hinv, hord, hent, hnil, hgood⟩ := puts_on_new order t0 hn ops
  have hshape : (t0.puts ops).leaves = [[]] ∨ ((t0.puts ops).leaves ≠ [] ∧
      ∀ l ∈ (t0.puts ops).leaves, l ≠ [] ∧ l.length ≤ 9223372036854775807) := by
    by_cases hops : ops = []
    · exact Or.inl (hnil hops)
    · refine Or.inr ⟨leavesN_ne_nil _ _, fun l hl => ?_⟩
      have := hgood hops l hl
      exact ⟨this.1, by have := this.2; omega⟩
  obtain ⟨itf, itr, h1, h2, h3⟩ := drain_chain (t0.puts ops).leaves hshape
  have hflat : (t0.puts ops).leaves.flatten =
      ops.foldl (fun es kv => leafInsert kv.1 kv.2 es) [] := hent
  have hsorted : List.Pairwise (fun x y => bytesLt x y = true)
      ((t0.puts ops).leaves.flatten.map Prod.fst) := by
    rw [hflat, List.pairwise_map]
    exact foldl_leafInsert_pairwise ops [] List.Pairwise.nil
  refine ⟨t0, itf, itr, (t0.puts ops).leaves.flatten, hn, h1, h2, h3, hsorted, ?_, ?_⟩
  · intro key
    rw [hflat, mem_keys_foldl_leafInsert]
    simp
  · rw [List.map_reverse, List.pairwise_reverse]
    exact hsorted

/-- Witness of C6: the puts of `TestIterator` on a tree of order 3; the
forward drain yields the fourteen keys in ascending order. -/
theorem iteration_after_puts_witness :
    3 ≤ 3 ∧ (3 : Nat) ≤ 9223372036854775807 ∧
    (New 3).map (fun t =>
      (drain (t.puts iteratorCases).heap 14 ⟨some 0, 0, ⟨false⟩⟩).map fun r =>
        r.1.map Prod.fst) =
      some (some [[0], [1], [2], [7], [11], [14], [15], [16], [18], [25], [33], [42], [60],
        [74]]) ∧
    ∃ t0 itf itr ps, New 3 = some t0 ∧
      (t0.puts iteratorCases).ends.Iterator (t0.puts iteratorCases).heap (some ⟨false⟩) =
        .ok itf ∧
      (t0.puts iteratorCases).ends.Iterator (t0.puts iteratorCases).heap (some ⟨true⟩) =
        .ok itr ∧
      (∀ fuel, ps.length ≤ fuel →
        (∃ fin, drain (t0.puts iteratorCases).heap fuel itf = some (ps, fin)) ∧
        (∃ fin, drain (t0.puts iteratorCases).heap fuel itr = some (ps.reverse, fin))) ∧
      List.Pairwise (fun x y => bytesLt x y = true) (ps.map Prod.fst) ∧
      (∀ key, key ∈ ps.map Prod.fst ↔ key ∈ iteratorCases.map Prod.fst) ∧
      List.Pairwise (fun x y => bytesLt y x = true) (ps.reverse.map Prod.fst) :=
  ⟨by decide, by decide, by decide,
    iteration_after_puts 3 (by decide) (by decide) iteratorCases⟩


end Bptree
